import Mathlib

/-!
A shallow embedding of the computation-graph core of `src/libraries/model/src/Model.cpp`
(EMLL `model` library): the graph container (`Model`), the dependency-ordered
lazy traversal (`NodeIterator`), and the identity-remapping context
(`ModelSerializationContext`), together with proofs of the behavioural
properties stated in the specification.

Nodes are identified by their `NodeId` (a `Nat`).  A `Node` carries its id, its
ordered list of input ports (each port being the ordered list of parent node
ids feeding it), and its ordered list of dependent node ids.  The container is
an association list from id to node; the C++ `std::unordered_map` operations
used by the source (`find`, `operator[]`) are mirrored by `mapFind` and
`mapInsert`.  The `while` loop of `NodeIterator::Next` is modelled with
explicit fuel, since the source loop need not terminate on cyclic graphs.
-/

set_option autoImplicit false

namespace EmllModel

/-- A node of the computation graph: its stable id, its input ports (each an
ordered list of parent node ids), and its dependent-node list
(mirrors the `Node` capability surface used by `Model.cpp`). -/
structure GNode where
  id : Nat
  inputPorts : List (List Nat)
  dependents : List Nat
  deriving DecidableEq, Repr

/-- The graph container's `_idToNodeMap`: an association list from `NodeId`
to node. -/
abbrev Model := List (Nat × GNode)

/-- Lookup in the id-to-node map, mirroring `std::unordered_map::find`:
the first entry with the given key, if any. -/
def mapFind (m : Model) (k : Nat) : Option GNode :=
  (m.find? (fun e => e.1 = k)).map (fun e => e.2)

/-- `Model::GetNode`: look the id up with `find`; return the stored node, or
`none` (the C++ code returns `nullptr`) when the id is absent.  The map is
returned as well to make it observable that the lookup does not touch it
(contrast `GetNodeFromId`, whose `operator[]` inserts on a miss). -/
def GetNode (m : Model) (id : Nat) : Option GNode × Model :=
  match m.find? (fun e => e.1 = id) with
  | some e => (some e.2, m)
  | none => (none, m)

/-- `map[k] = v` on a `std::unordered_map` represented as an association
list: replace the entry under `k` if the key is present, otherwise add a new
entry. -/
def alistInsert {β : Type} (l : List (Nat × β)) (k : Nat) (v : β) : List (Nat × β) :=
  if l.any (fun e => e.1 = k) then
    l.map (fun e => if e.1 = k then (k, v) else e)
  else
    l ++ [(k, v)]

/-- `_idToNodeMap[k] = v` in `Model::SetObjectState`. -/
def mapInsert (m : Model) (k : Nat) (v : GNode) : Model :=
  alistInsert m k v

/-- The keys of the container's map. -/
def keysOf (m : Model) : List Nat :=
  m.map (fun e => e.1)

/-- The node data the iterator reads through a stack pointer: the stored
node when the id is in the container.  An id not in the container is given
the default node with no ports and no dependents (the C++ code would follow
a caller-supplied pointer; all claims are about nodes held by the container). -/
def getNodeD (m : Model) (n : Nat) : GNode :=
  (mapFind m n).getD ⟨n, [], []⟩

/-- All parents of `n` across all of its input ports, in port order
(`node->GetInputPorts()`, then `inputPort->GetParentNodes()`). -/
def parentsOf (m : Model) (n : Nat) : List Nat :=
  (getNodeD m n).inputPorts.flatMap (fun port => port)

/-- The dependent nodes of `n` (`node->GetDependentNodes()`). -/
def depsOf (m : Model) (n : Nat) : List Nat :=
  (getNodeD m n).dependents

/-- Sequential `push_back` of each element of `xs` (in list order) onto a
stack whose top is the list head. -/
def pushAll (xs : List Nat) (stack : List Nat) : List Nat :=
  xs.foldl (fun st x => x :: st) stack

/-- The mutable state of a `NodeIterator`: the work stack (top at the head),
the set of already-visited nodes, the current node slot, and the
whole-graph-mode flag `_visitFullModel`. -/
structure NodeIterator where
  stack : List Nat
  visited : List Nat
  currentNode : Option Nat
  visitFullModel : Bool
  deriving DecidableEq, Repr

/-- The outcome of one iteration of the `while` loop in `NodeIterator::Next`:
the stack is exhausted, a node is emitted (with the new stack and visited
set), or the loop continues with a new stack. -/
inductive StepRes where
  | exhausted : StepRes
  | emit (n : Nat) (stack visited : List Nat) : StepRes
  | goOn (stack : List Nat) : StepRes
  deriving DecidableEq, Repr

/-- One iteration of the loop body of `NodeIterator::Next`: peek the top;
pop it if already visited; if every parent on every input port is visited,
pop it, mark it visited and emit it (in whole-graph mode also pushing its
dependents in reverse order); otherwise push every parent, walking the input
ports in reverse order (`ModelImpl::Reverse`, modelled as list reversal per
its name and the source comments) and each port's parents in their stored
order. -/
def loopStep (m : Model) (full : Bool) (stack visited : List Nat) : StepRes :=
  match stack with
  | [] => .exhausted
  | n :: rest =>
    if n ∈ visited then
      .goOn rest
    else if (getNodeD m n).inputPorts.all
        (fun port => port.all (fun p => p ∈ visited)) then
      .emit n (if full then pushAll (depsOf m n).reverse rest else rest)
        (n :: visited)
    else
      .goOn (pushAll
        ((getNodeD m n).inputPorts.reverse.flatMap (fun port => port)) stack)

/-- The `while` loop of `NodeIterator::Next`, with fuel bounding the number
of loop iterations.  `none` means the fuel ran out (the source loop has not
finished); `some (c, stack, visited)` means the loop finished with current
node `c` (`none` when the stack emptied) and the given stack and visited
set. -/
def nextLoop (m : Model) (full : Bool) :
    Nat → List Nat → List Nat → Option (Option Nat × List Nat × List Nat)
  | 0, _, _ => none
  | fuel + 1, stack, visited =>
    match loopStep m full stack visited with
    | .exhausted => some (none, [], visited)
    | .emit n stack' visited' => some (some n, stack', visited')
    | .goOn stack' => nextLoop m full fuel stack' visited

/-- `NodeIterator::Next` on an iterator state, with fuel for the loop. -/
def Next (m : Model) (fuel : Nat) (s : NodeIterator) : Option NodeIterator :=
  (nextLoop m s.visitFullModel fuel s.stack s.visited).map
    (fun r => ⟨r.2.1, r.2.2, r.1, s.visitFullModel⟩)

/-- The seed-discovery loop of the whole-graph constructor: follow
`GetDependentNodes()[0]` links from `n` until reaching a node with no
dependents, with fuel bounding the number of links followed. -/
def findLeaf (m : Model) (fuel : Nat) (n : Nat) : Option Nat :=
  match depsOf m n with
  | [] => some n
  | d :: _ =>
    match fuel with
    | 0 => none
    | fuel + 1 => findLeaf m fuel d

/-- The whole-graph branch of the `NodeIterator` constructor, with the
arbitrary starting node of the seed discovery made explicit: find a leaf from
`start`, seed the stack with it, set `_visitFullModel`, and run the first
`Next`.  (On an empty container the constructor returns with an empty stack
and no current node.) -/
def initIteratorFrom (m : Model) (start : Nat) (fuel : Nat) : Option NodeIterator :=
  if m.length = 0 then
    some ⟨[], [], none, false⟩
  else
    (findLeaf m fuel start).bind (fun leaf => Next m fuel ⟨[leaf], [], none, true⟩)

/-- The `NodeIterator` constructor: on an empty container, stop with an
empty stack; otherwise seed the stack with the output nodes (the C++ vector's
back — the stack top — is the last output), or, when no outputs are given,
enter whole-graph mode starting the seed discovery from the first node of the
map; finally run the first `Next`. -/
def initIterator (m : Model) (outputs : List Nat) (fuel : Nat) : Option NodeIterator :=
  if m.length = 0 then
    some ⟨[], [], none, false⟩
  else if outputs.isEmpty then
    match m with
    | [] => some ⟨[], [], none, false⟩
    | e :: _ => initIteratorFrom m e.2.id fuel
  else
    Next m fuel ⟨outputs.reverse, [], none, false⟩

/-- Why a run of repeated `Next` calls came to an end: the iterator reported
exhaustion (`IsValid()` false: no current node), the loop fuel ran out inside
a call, or the allotted number of calls was used up. -/
inductive RunEnd where
  | exhausted : RunEnd
  | fuelOut : RunEnd
  | callsOut : RunEnd
  deriving DecidableEq, Repr

/-- Modelled from the spec: the consuming pattern `while (iter.IsValid())
{ use iter.Get(); iter.Next(); }`, where `IsValid`/`Get` (declared in the
header, which is not part of the analyzed source) report the current node
slot; «the sequence is exhausted» when a `Next` ends with an empty stack and
no current node.  Returns the emitted node ids in order, together with how
the run ended. -/
def runIter (m : Model) (fuel : Nat) : Nat → Option NodeIterator → List Nat × RunEnd
  | _, none => ([], .fuelOut)
  | 0, some _ => ([], .callsOut)
  | calls + 1, some s =>
    match s.currentNode with
    | none => ([], .exhausted)
    | some n =>
      let r := runIter m fuel calls (Next m fuel s)
      (n :: r.1, r.2)

/-- The full emission sequence of an iterator constructed on `outputs`
(restricted mode when `outputs` is non-empty, whole-graph mode otherwise),
over at most `calls` emissions with loop fuel `fuel`. -/
def emitList (m : Model) (outputs : List Nat) (fuel calls : Nat) : List Nat :=
  (runIter m fuel calls (initIterator m outputs fuel)).1

/-- How the run of `emitList` ended. -/
def emitEnd (m : Model) (outputs : List Nat) (fuel calls : Nat) : RunEnd :=
  (runIter m fuel calls (initIterator m outputs fuel)).2

/-- The identity-remapping context `ModelSerializationContext`: its
`_oldToNewNodeMap` from old ids to (possibly null) pointers to freshly
constructed nodes.  A `none` value models a null `Node*`. -/
structure ModelSerializationContext where
  oldToNewNodeMap : List (Nat × Option GNode)
  deriving DecidableEq, Repr

/-- The keys registered (or defaulted) in the context's old-to-new map. -/
def ctxKeys (c : ModelSerializationContext) : List Nat :=
  c.oldToNewNodeMap.map (fun e => e.1)

/-- `ModelSerializationContext::GetNodeFromId`: `return _oldToNewNodeMap[id]`.
`operator[]` on `std::unordered_map` returns the stored value when the key
is present; when the key is absent it value-initializes the mapped value (a
null pointer), inserts that entry, and returns it — so the lookup also
returns the possibly grown map. -/
def GetNodeFromId (c : ModelSerializationContext) (id : Nat) :
    Option GNode × ModelSerializationContext :=
  match c.oldToNewNodeMap.find? (fun e => e.1 = id) with
  | some e => (e.2, c)
  | none => (none, ⟨c.oldToNewNodeMap ++ [(id, none)]⟩)

/-- `ModelSerializationContext::MapNode`: `_oldToNewNodeMap[id] = node`
(replace the entry under `id` if present, otherwise insert it). -/
def MapNode (c : ModelSerializationContext) (id : Nat) (node : GNode) :
    ModelSerializationContext :=
  ⟨alistInsert c.oldToNewNodeMap id (some node)⟩

/-- `Model::GetDescription`: collect the container's nodes in whole-graph
iterator order; the description's `"nodes"` property is that ordered
sequence. -/
def GetDescription (m : Model) (fuel calls : Nat) : List GNode :=
  (emitList m [] fuel calls).map (getNodeD m)

/-- Modelled from the spec: `Node::RegisterDependencies` is an external node
capability (its code is not part of the analyzed source); per §4.1/§6/§9 it
resolves the node's encoded parent-id references through the remapping
context and rebuilds the derived dependent back-links on the nodes of the
restore.  At this data level the parent ids are already stable, so
registration rebuilds a node's dependents as the ids of the description's
nodes (in description order) that list it among their port parents. -/
def registerNode (desc : List GNode) (nd : GNode) : GNode :=
  ⟨nd.id, nd.inputPorts,
    (desc.filter
      (fun d => (d.inputPorts.flatMap (fun port => port)).contains nd.id)).map
      (fun d => d.id)⟩

/-- `Model::SetObjectState` (restore): read the `"nodes"` sequence of the
description, then, for each node in order, register its dependencies and
store it in `_idToNodeMap` under its own id. -/
def SetObjectState (m : Model) (desc : List GNode) : Model :=
  desc.foldl
    (fun acc nd =>
      let nd' := registerNode desc nd
      mapInsert acc nd'.id nd')
    m

/-- Acyclicity of the dependency relation (parent-of, via input ports) of
the graph held by the container: some rank function makes every parent
strictly smaller than each node it feeds.  For a finite graph this is
exactly the existence of a topological order, i.e. the absence of directed
cycles. -/
def AcyclicModel (m : Model) : Prop :=
  ∃ rank : Nat → Nat, ∀ n p : Nat, p ∈ parentsOf m n → rank p < rank n

/-- A certificate that part of the dependency relation is cyclic: a
non-empty set of nodes each of which has a parent inside the set.  The node
set of any directed parent cycle is such a set, as is the set of all nodes
from which a cycle can be reached by following parent edges. -/
def Trapped (m : Model) (S : List Nat) : Prop :=
  S ≠ [] ∧ ∀ n ∈ S, ∃ p ∈ S, p ∈ parentsOf m n

/-- `IsAncestor m o a`: `a` is reachable from `o` (inclusively) by following
parent edges upward through input ports. -/
def IsAncestor (m : Model) (o a : Nat) : Prop :=
  Relation.ReflTransGen (fun x y => y ∈ parentsOf m x) o a

/-- The documented coherence of the two stored edge directions (§3): `p` is
listed among the port parents of `n` exactly when `n` is listed among the
dependent nodes of `p`. -/
def Consistent (m : Model) : Prop :=
  ∀ p n : Nat, p ∈ parentsOf m n ↔ n ∈ depsOf m p

/-- The undirected dependency edge: one endpoint lists the other as a port
parent. -/
def UEdge (m : Model) (a b : Nat) : Prop :=
  b ∈ parentsOf m a ∨ a ∈ parentsOf m b

/-- Weak connectivity of the container's graph: any two held nodes are
joined by a chain of undirected dependency edges. -/
def WeaklyConnected (m : Model) : Prop :=
  ∀ a ∈ keysOf m, ∀ b ∈ keysOf m, Relation.ReflTransGen (UEdge m) a b

/-- Every node id the container mentions: keys, node ids, port parents, and
dependent lists.  All ids the iterator ever stacks or visits lie in this
list together with the ids it was seeded with. -/
def modelUniverse (m : Model) : List Nat :=
  m.flatMap (fun e =>
    e.1 :: e.2.id :: (e.2.inputPorts.flatMap (fun port => port) ++ e.2.dependents))

/-- The termination measure of one `Next` call on an acyclic graph: the rank
of the topmost unvisited stack entry (plus one), paired lexicographically
with its depth from the top; a stack with no unvisited entry measures
`(0, length)`. -/
def meas (rank : Nat → Nat) (visited : List Nat) : List Nat → Nat × Nat
  | [] => (0, 0)
  | n :: rest =>
    if n ∈ visited then
      ((meas rank visited rest).1, (meas rank visited rest).2 + 1)
    else
      (rank n + 1, 0)

/-- Checks that each node of the list has all of its parents in `seen` (the
accumulated prefix of nodes emitted before it). -/
def parentsBeforeAux (m : Model) (seen : List Nat) : List Nat → Bool
  | [] => true
  | n :: rest =>
    (parentsOf m n).all (fun p => seen.contains p) &&
      parentsBeforeAux m (seen ++ [n]) rest

/-- The link between an iterator state and the list `seen` of the nodes
emitted so far, the current one last: the visited set holds exactly the
emitted nodes, the current node is fresh and had all of its parents emitted
strictly earlier, and an exhausted state has an empty stack. -/
def StateOK (m : Model) (s : NodeIterator) (seen : List Nat) : Prop :=
  (∀ c, s.currentNode = some c →
    (∀ x, x ∈ s.visited ↔ (x = c ∨ x ∈ seen)) ∧ c ∉ seen ∧
      ∀ p ∈ parentsOf m c, p ∈ seen) ∧
  (s.currentNode = none → (∀ x, x ∈ s.visited ↔ x ∈ seen) ∧ s.stack = [])

/-- The deterministic sequence of states produced by repeated `Next` calls
with a fixed loop fuel: from `s`, over the emissions `L`, down to the
exhausted state `sf`. -/
inductive NextChain (m : Model) (fuel : Nat) :
    NodeIterator → List Nat → NodeIterator → Prop
  | done (s : NodeIterator) : s.currentNode = none → NextChain m fuel s [] s
  | step (s : NodeIterator) (c : Nat) (s' : NodeIterator) (L : List Nat)
      (sf : NodeIterator) : s.currentNode = some c → Next m fuel s = some s' →
      NextChain m fuel s' L sf → NextChain m fuel s (c :: L) sf

/-- The last node of a description carrying the given id: the one whose
insertion wins when `SetObjectState` folds the description into the map. -/
def lastWithId (desc : List GNode) (k : Nat) : Option GNode :=
  desc.reverse.find? (fun nd => nd.id = k)

/-- The loop body of `Next` as the specification words its blocked branch:
«push every parent, across all input ports, in reverse port and reverse
parent order».  It differs from `loopStep` (the source) only in reversing
each port's parent list before pushing; the other branches are unchanged.
Stated separately so the source's behaviour can be compared against the
specified one. -/
def loopStepSpecC6 (m : Model) (full : Bool) (stack visited : List Nat) : StepRes :=
  match stack with
  | [] => .exhausted
  | n :: rest =>
    if n ∈ visited then
      .goOn rest
    else if (getNodeD m n).inputPorts.all
        (fun port => port.all (fun p => p ∈ visited)) then
      .emit n (if full then pushAll (depsOf m n).reverse rest else rest)
        (n :: visited)
    else
      .goOn (pushAll
        ((getNodeD m n).inputPorts.reverse.flatMap (fun port => port.reverse)) stack)

/-- The three-node linear chain of §8 (node 1 feeds 2, which feeds 3). -/
def chain3 : Model :=
  [(1, ⟨1, [], [2]⟩), (2, ⟨2, [[1]], [3]⟩), (3, ⟨3, [[2]], []⟩)]

/-- The diamond of §8: source 1, parallel middles 2 and 3, sink 4. -/
def diamond : Model :=
  [(1, ⟨1, [], [2, 3]⟩), (2, ⟨2, [[1]], [4]⟩), (3, ⟨3, [[1]], [4]⟩),
   (4, ⟨4, [[2], [3]], []⟩)]

/-- A single node with no inputs (§8). -/
def single1 : Model := [(7, ⟨7, [], []⟩)]

/-- A node with one input port fed by two parents, both sources: node 1's
port lists parents `[2, 3]`. -/
def mC6 : Model :=
  [(1, ⟨1, [[2, 3]], []⟩), (2, ⟨2, [], [1]⟩), (3, ⟨3, [], [1]⟩)]

/-- Two isolated nodes: an acyclic but disconnected container. -/
def mDisc : Model :=
  [(1, ⟨1, [], []⟩), (2, ⟨2, [], []⟩)]

/-- An acyclic node 1 next to a two-node dependency cycle between 2 and 3
(each is a port parent of the other). -/
def mCyc : Model :=
  [(1, ⟨1, [], []⟩), (2, ⟨2, [[3]], [3]⟩), (3, ⟨3, [[2]], [2]⟩)]

/-- Set-equality of two id lists (order and multiplicity ignored). -/
def sameSet (a b : List Nat) : Bool :=
  a.all (fun x => b.contains x) && b.all (fun x => a.contains x)

/-- The comparison performed by the round-trip law of §8: serialize with
`GetDescription`, restore with `SetObjectState` into an empty container, and
compare node count, id set, and each node's parent ports and dependent set
with the original. -/
def roundTripOK (m : Model) (fuel calls : Nat) : Bool :=
  let m' := SetObjectState [] (GetDescription m fuel calls)
  decide (m'.length = m.length) && sameSet (keysOf m') (keysOf m) &&
    (keysOf m).all (fun k =>
      match mapFind m k, mapFind m' k with
      | some a, some b =>
          decide (a.inputPorts = b.inputPorts) && sameSet a.dependents b.dependents
      | _, _ => false)

/-! ## Helper lemmas on the association-list map operations -/

theorem pushAll_eq (xs stack : List Nat) : pushAll xs stack = xs.reverse ++ stack := by
  induction xs generalizing stack with
  | nil => rfl
  | cons x xs ih =>
    show pushAll xs (x :: stack) = (x :: xs).reverse ++ stack
    rw [ih]
    simp

theorem find?_key_eq_none {β : Type} (l : List (Nat × β)) (k : Nat)
    (h : k ∉ l.map (fun e => e.1)) : l.find? (fun e => e.1 = k) = none := by
  rw [List.find?_eq_none]
  intro x hx
  have hxk : x.1 ≠ k := fun hk => h (hk ▸ List.mem_map_of_mem (fun e => e.1) hx)
  simp [hxk]

theorem find?_mapOverwrite {β : Type} (l : List (Nat × β)) (k j : Nat) (v : β)
    (h : j ≠ k) :
    (l.map (fun e => if e.1 = k then (k, v) else e)).find? (fun e => e.1 = j)
      = l.find? (fun e => e.1 = j) := by
  induction l with
  | nil => rfl
  | cons e rest ih =>
    rw [List.map_cons]
    by_cases hek : e.1 = k
    · have hkj : ¬ (k = j) := fun hkj => h hkj.symm
      have hej : ¬ (e.1 = j) := by rw [hek]; exact hkj
      rw [if_pos hek, List.find?_cons_of_neg _ (by simp [hkj]),
        List.find?_cons_of_neg _ (by simp [hej]), ih]
    · by_cases hej : e.1 = j
      · rw [if_neg hek, List.find?_cons_of_pos _ (by simp [hej]),
          List.find?_cons_of_pos _ (by simp [hej])]
      · rw [if_neg hek, List.find?_cons_of_neg _ (by simp [hej]),
          List.find?_cons_of_neg _ (by simp [hej]), ih]

theorem find?_alistInsert_self {β : Type} (l : List (Nat × β)) (k : Nat) (v : β) :
    (alistInsert l k v).find? (fun e => e.1 = k) = some (k, v) := by
  induction l with
  | nil =>
    rw [show alistInsert ([] : List (Nat × β)) k v = [(k, v)] from rfl,
      List.find?_cons_of_pos _ (by simp)]
  | cons e rest ih =>
    by_cases hek : e.1 = k
    · have h1 : alistInsert (e :: rest) k v
          = (k, v) :: rest.map (fun x => if x.1 = k then (k, v) else x) := by
        have : (e :: rest).any (fun x => x.1 = k) = true := by simp [hek]
        rw [alistInsert, if_pos this, List.map_cons, if_pos hek]
      rw [h1, List.find?_cons_of_pos _ (by simp)]
    · have h1 : alistInsert (e :: rest) k v = e :: alistInsert rest k v := by
        by_cases har : rest.any (fun x => x.1 = k) = true
        · have : (e :: rest).any (fun x => x.1 = k) = true := by simp [har]
          rw [alistInsert, if_pos this, alistInsert, if_pos har, List.map_cons,
            if_neg hek]
        · have : ¬ ((e :: rest).any (fun x => x.1 = k) = true) := by
            simp [hek]
            simpa using har
          rw [alistInsert, if_neg this, alistInsert, if_neg har, List.cons_append]
      rw [h1, List.find?_cons_of_neg _ (by simp [hek]), ih]

theorem find?_alistInsert_ne {β : Type} (l : List (Nat × β)) (k j : Nat) (v : β)
    (h : j ≠ k) :
    (alistInsert l k v).find? (fun e => e.1 = j) = l.find? (fun e => e.1 = j) := by
  rw [alistInsert]
  by_cases har : l.any (fun x => x.1 = k) = true
  · rw [if_pos har]
    exact find?_mapOverwrite l k j v h
  · rw [if_neg har, List.find?_append]
    have h2 : List.find? (fun e => e.1 = j) [(k, v)] = none := by
      have hkj : ¬ (k = j) := fun hkj => h hkj.symm
      rw [List.find?_cons_of_neg _ (by simp [hkj])]
      rfl
    rw [h2]
    cases l.find? (fun e => e.1 = j) <;> rfl

theorem getNode_fst (m : Model) (k : Nat) : (GetNode m k).1 = mapFind m k := by
  unfold GetNode mapFind
  cases m.find? (fun e => e.1 = k) <;> rfl

theorem getNode_snd (m : Model) (k : Nat) : (GetNode m k).2 = m := by
  unfold GetNode
  cases m.find? (fun e => e.1 = k) <;> rfl

theorem mapFind_eq_none (m : Model) (k : Nat) (h : k ∉ keysOf m) :
    mapFind m k = none := by
  unfold mapFind
  rw [find?_key_eq_none m k h]
  rfl

theorem mapFind_mapInsert_self (m : Model) (k : Nat) (v : GNode) :
    mapFind (mapInsert m k v) k = some v := by
  unfold mapFind mapInsert
  rw [find?_alistInsert_self]
  rfl

theorem mapFind_mapInsert_ne (m : Model) (k j : Nat) (v : GNode) (h : j ≠ k) :
    mapFind (mapInsert m k v) j = mapFind m j := by
  unfold mapFind mapInsert
  rw [find?_alistInsert_ne _ _ _ _ h]

@[simp] theorem registerNode_id (desc : List GNode) (nd : GNode) :
    (registerNode desc nd).id = nd.id := rfl

theorem setObjectState_foldl (m : Model) (desc : List GNode) :
    SetObjectState m desc =
      desc.foldl (fun acc nd => mapInsert acc nd.id (registerNode desc nd)) m := rfl

theorem mapFind_foldl_not_mem (desc l : List GNode) (m : Model) (k : Nat) :
    (∀ nd ∈ l, nd.id ≠ k) →
    mapFind (l.foldl (fun acc nd => mapInsert acc nd.id (registerNode desc nd)) m) k
      = mapFind m k := by
  induction l generalizing m with
  | nil => intro _; rfl
  | cons nd rest ih =>
    intro h
    rw [List.foldl_cons, ih _ (fun x hx => h x (List.mem_cons_of_mem nd hx)),
      mapFind_mapInsert_ne]
    exact fun hk => h nd (List.mem_cons_self nd rest) hk.symm

theorem mapFind_foldl_last (desc l : List GNode) (m : Model) (k : Nat) (nd : GNode) :
    l.reverse.find? (fun x => x.id = k) = some nd →
    mapFind (l.foldl (fun acc x => mapInsert acc x.id (registerNode desc x)) m) k
      = some (registerNode desc nd) := by
  induction l using List.reverseRecOn generalizing m with
  | nil => intro h; simp at h
  | append_singleton l x ih =>
    intro h
    rw [List.foldl_append, List.foldl_cons, List.foldl_nil]
    rw [List.reverse_append, List.reverse_singleton, List.singleton_append] at h
    by_cases hxk : x.id = k
    · rw [List.find?_cons_of_pos _ (by simp [hxk])] at h
      have hx : x = nd := Option.some.inj h
      subst hx
      subst hxk
      exact mapFind_mapInsert_self _ _ _
    · rw [List.find?_cons_of_neg _ (by simp [hxk])] at h
      rw [mapFind_mapInsert_ne _ _ _ _ (fun hk => hxk hk.symm)]
      exact ih _ h

/-! ## Membership helpers for the graph accessors -/

theorem mapFind_eq_some_mem (m : Model) (k : Nat) (nd : GNode)
    (h : mapFind m k = some nd) : (k, nd) ∈ m := by
  unfold mapFind at h
  cases hf : m.find? (fun e => e.1 = k) with
  | none => rw [hf] at h; exact absurd h (by simp)
  | some e =>
    rw [hf] at h
    have he : e.2 = nd := by simpa using h
    have hk : e.1 = k := by simpa using List.find?_some hf
    have hm := List.mem_of_find?_eq_some hf
    rw [← he, ← hk]
    exact hm

theorem parentsOf_cases (m : Model) (n p : Nat) (h : p ∈ parentsOf m n) :
    ∃ nd : GNode, (n, nd) ∈ m ∧ p ∈ nd.inputPorts.flatMap (fun port => port) := by
  unfold parentsOf getNodeD at h
  cases hf : mapFind m n with
  | none => rw [hf] at h; exact absurd h (by simp)
  | some nd =>
    rw [hf] at h
    exact ⟨nd, mapFind_eq_some_mem m n nd hf, h⟩

theorem depsOf_cases (m : Model) (n d : Nat) (h : d ∈ depsOf m n) :
    ∃ nd : GNode, (n, nd) ∈ m ∧ d ∈ nd.dependents := by
  unfold depsOf getNodeD at h
  cases hf : mapFind m n with
  | none => rw [hf] at h; exact absurd h (by simp)
  | some nd =>
    rw [hf] at h
    exact ⟨nd, mapFind_eq_some_mem m n nd hf, h⟩

theorem parentsOf_key (m : Model) (n p : Nat) (h : p ∈ parentsOf m n) :
    n ∈ keysOf m := by
  obtain ⟨nd, hmem, -⟩ := parentsOf_cases m n p h
  exact List.mem_map_of_mem (fun e => e.1) hmem

theorem depsOf_key (m : Model) (n d : Nat) (h : d ∈ depsOf m n) :
    n ∈ keysOf m := by
  obtain ⟨nd, hmem, -⟩ := depsOf_cases m n d h
  exact List.mem_map_of_mem (fun e => e.1) hmem

theorem parentsOf_universe (m : Model) (n p : Nat) (h : p ∈ parentsOf m n) :
    p ∈ modelUniverse m := by
  obtain ⟨nd, hmem, hp⟩ := parentsOf_cases m n p h
  unfold modelUniverse
  rw [List.mem_flatMap]
  exact ⟨(n, nd), hmem, by simp [hp]⟩

theorem depsOf_universe (m : Model) (n d : Nat) (h : d ∈ depsOf m n) :
    d ∈ modelUniverse m := by
  obtain ⟨nd, hmem, hd⟩ := depsOf_cases m n d h
  unfold modelUniverse
  rw [List.mem_flatMap]
  exact ⟨(n, nd), hmem, by simp [hd]⟩

theorem keys_universe (m : Model) (n : Nat) (h : n ∈ keysOf m) :
    n ∈ modelUniverse m := by
  unfold keysOf at h
  rw [List.mem_map] at h
  obtain ⟨e, he, rfl⟩ := h
  unfold modelUniverse
  rw [List.mem_flatMap]
  exact ⟨e, he, by simp⟩

theorem canVisit_iff (m : Model) (n : Nat) (vis : List Nat) :
    ((getNodeD m n).inputPorts.all
        (fun port => port.all (fun p => p ∈ vis)) = true)
      ↔ ∀ p ∈ parentsOf m n, p ∈ vis := by
  simp only [List.all_eq_true, decide_eq_true_eq, parentsOf, List.mem_flatMap]
  constructor
  · rintro h p ⟨port, hport, hp⟩
    exact h port hport p hp
  · intro h port hport p hp
    exact h p ⟨port, hport, hp⟩

theorem mem_pushedParents (m : Model) (n x : Nat) :
    x ∈ (getNodeD m n).inputPorts.flatMap (fun port => port.reverse)
      ↔ x ∈ parentsOf m n := by
  simp [parentsOf, List.mem_flatMap]

/-! ## Equation lemmas for the `Next` loop -/

theorem nextLoop_zero (m : Model) (full : Bool) (stack vis : List Nat) :
    nextLoop m full 0 stack vis = none := rfl

theorem nextLoop_eq_nil (m : Model) (full : Bool) (fuel : Nat) (vis : List Nat) :
    nextLoop m full (fuel + 1) [] vis = some (none, [], vis) := rfl

theorem loopStep_cons (m : Model) (full : Bool) (n : Nat) (rest vis : List Nat) :
    loopStep m full (n :: rest) vis =
      if n ∈ vis then .goOn rest
      else if (getNodeD m n).inputPorts.all
          (fun port => port.all (fun p => p ∈ vis)) then
        .emit n (if full then pushAll (depsOf m n).reverse rest else rest)
          (n :: vis)
      else
        .goOn (pushAll
          ((getNodeD m n).inputPorts.reverse.flatMap (fun port => port))
          (n :: rest)) := rfl

theorem loopStep_visited (m : Model) (full : Bool) (n : Nat)
    (rest vis : List Nat) (h : n ∈ vis) :
    loopStep m full (n :: rest) vis = .goOn rest := by
  rw [loopStep_cons, if_pos h]

theorem loopStep_emit (m : Model) (full : Bool) (n : Nat) (rest vis : List Nat)
    (hn : n ∉ vis) (hcv : ∀ p ∈ parentsOf m n, p ∈ vis) :
    loopStep m full (n :: rest) vis =
      .emit n (if full then depsOf m n ++ rest else rest) (n :: vis) := by
  rw [loopStep_cons, if_neg hn, if_pos ((canVisit_iff m n vis).mpr hcv)]
  have hp : pushAll (depsOf m n).reverse rest = depsOf m n ++ rest := by
    rw [pushAll_eq, List.reverse_reverse]
  cases full
  · rfl
  · rw [if_pos rfl, if_pos rfl, hp]

theorem loopStep_push (m : Model) (full : Bool) (n : Nat) (rest vis : List Nat)
    (hn : n ∉ vis) (hcv : ¬ ∀ p ∈ parentsOf m n, p ∈ vis) :
    loopStep m full (n :: rest) vis =
      .goOn ((getNodeD m n).inputPorts.flatMap (fun port => port.reverse)
        ++ (n :: rest)) := by
  rw [loopStep_cons, if_neg hn,
    if_neg (fun hb => hcv ((canVisit_iff m n vis).mp hb)),
    pushAll_eq, List.reverse_flatMap, List.reverse_reverse]
  rfl

theorem nextLoop_eq_pop (m : Model) (full : Bool) (fuel : Nat) (n : Nat)
    (rest vis : List Nat) (h : n ∈ vis) :
    nextLoop m full (fuel + 1) (n :: rest) vis = nextLoop m full fuel rest vis := by
  show (match loopStep m full (n :: rest) vis with
    | .exhausted => some (none, [], vis)
    | .emit n st' vis' => some (some n, st', vis')
    | .goOn st' => nextLoop m full fuel st' vis) = _
  rw [loopStep_visited m full n rest vis h]

theorem nextLoop_eq_emit (m : Model) (full : Bool) (fuel : Nat) (n : Nat)
    (rest vis : List Nat) (hn : n ∉ vis) (hcv : ∀ p ∈ parentsOf m n, p ∈ vis) :
    nextLoop m full (fuel + 1) (n :: rest) vis =
      some (some n, (if full then depsOf m n ++ rest else rest), n :: vis) := by
  show (match loopStep m full (n :: rest) vis with
    | .exhausted => some (none, [], vis)
    | .emit n st' vis' => some (some n, st', vis')
    | .goOn st' => nextLoop m full fuel st' vis) = _
  rw [loopStep_emit m full n rest vis hn hcv]

theorem nextLoop_eq_push (m : Model) (full : Bool) (fuel : Nat) (n : Nat)
    (rest vis : List Nat) (hn : n ∉ vis)
    (hcv : ¬ ∀ p ∈ parentsOf m n, p ∈ vis) :
    nextLoop m full (fuel + 1) (n :: rest) vis =
      nextLoop m full fuel
        ((getNodeD m n).inputPorts.flatMap (fun port => port.reverse)
          ++ (n :: rest)) vis := by
  show (match loopStep m full (n :: rest) vis with
    | .exhausted => some (none, [], vis)
    | .emit n st' vis' => some (some n, st', vis')
    | .goOn st' => nextLoop m full fuel st' vis) = _
  rw [loopStep_push m full n rest vis hn hcv]

/-! ## Behaviour of the `Next` loop: emission effect, monotonicity,
invariants -/

theorem nextLoop_some_spec (m : Model) (full : Bool) (vis : List Nat) :
    ∀ (fuel : Nat) (stack : List Nat) (r : Option Nat × List Nat × List Nat),
      nextLoop m full fuel stack vis = some r →
      (r.1 = none ∧ r.2.1 = [] ∧ r.2.2 = vis) ∨
      (∃ n, r.1 = some n ∧ n ∉ vis ∧ (∀ p ∈ parentsOf m n, p ∈ vis) ∧
        r.2.2 = n :: vis) := by
  intro fuel
  induction fuel with
  | zero =>
    intro stack r h
    rw [nextLoop_zero] at h
    exact absurd h (by simp)
  | succ fuel ih =>
    intro stack r h
    cases stack with
    | nil =>
      rw [nextLoop_eq_nil] at h
      obtain rfl := Option.some.inj h
      exact Or.inl ⟨rfl, rfl, rfl⟩
    | cons n rest =>
      by_cases hv : n ∈ vis
      · rw [nextLoop_eq_pop _ _ _ _ _ _ hv] at h
        exact ih rest r h
      · by_cases hcv : ∀ p ∈ parentsOf m n, p ∈ vis
        · rw [nextLoop_eq_emit _ _ _ _ _ _ hv hcv] at h
          obtain rfl := Option.some.inj h
          exact Or.inr ⟨n, rfl, hv, hcv, rfl⟩
        · rw [nextLoop_eq_push _ _ _ _ _ _ hv hcv] at h
          exact ih _ r h

theorem nextLoop_mono (m : Model) (full : Bool) (vis : List Nat) :
    ∀ (fuel fuel' : Nat) (stack : List Nat)
      (r : Option Nat × List Nat × List Nat), fuel ≤ fuel' →
      nextLoop m full fuel stack vis = some r →
      nextLoop m full fuel' stack vis = some r := by
  intro fuel
  induction fuel with
  | zero =>
    intro fuel' stack r _ h
    rw [nextLoop_zero] at h
    exact absurd h (by simp)
  | succ fuel ih =>
    intro fuel' stack r hle h
    obtain ⟨fuel'', rfl⟩ : ∃ k, fuel' = k + 1 := ⟨fuel' - 1, by omega⟩
    have hle' : fuel ≤ fuel'' := by omega
    cases stack with
    | nil => rw [nextLoop_eq_nil] at h ⊢; exact h
    | cons n rest =>
      by_cases hv : n ∈ vis
      · rw [nextLoop_eq_pop _ _ _ _ _ _ hv] at h ⊢
        exact ih fuel'' rest r hle' h
      · by_cases hcv : ∀ p ∈ parentsOf m n, p ∈ vis
        · rw [nextLoop_eq_emit _ _ _ _ _ _ hv hcv] at h ⊢; exact h
        · rw [nextLoop_eq_push _ _ _ _ _ _ hv hcv] at h ⊢
          exact ih fuel'' _ r hle' h

theorem nextLoop_trapped (m : Model) (full : Bool) (S vis : List Nat)
    (htrap : ∀ n ∈ S, ∃ p ∈ S, p ∈ parentsOf m n)
    (hdis : ∀ x ∈ vis, x ∉ S) :
    ∀ (fuel : Nat) (stack : List Nat) (r : Option Nat × List Nat × List Nat)
      (t : Nat), t ∈ stack → t ∈ S →
      nextLoop m full fuel stack vis = some r →
      ∃ n, r.1 = some n ∧ n ∉ S ∧ ∃ t' ∈ r.2.1, t' ∈ S := by
  intro fuel
  induction fuel with
  | zero =>
    intro stack r t _ _ h
    rw [nextLoop_zero] at h
    exact absurd h (by simp)
  | succ fuel ih =>
    intro stack r t ht htS h
    cases stack with
    | nil => exact absurd ht (by simp)
    | cons n rest =>
      by_cases hv : n ∈ vis
      · rw [nextLoop_eq_pop _ _ _ _ _ _ hv] at h
        have htr : t ∈ rest := by
          cases List.mem_cons.mp ht with
          | inl h' => exact absurd htS (h' ▸ hdis n hv)
          | inr h' => exact h'
        exact ih rest r t htr htS h
      · by_cases hcv : ∀ p ∈ parentsOf m n, p ∈ vis
        · rw [nextLoop_eq_emit _ _ _ _ _ _ hv hcv] at h
          obtain rfl := Option.some.inj h
          have hnS : n ∉ S := by
            intro hn
            obtain ⟨p, hpS, hpar⟩ := htrap n hn
            exact hdis p (hcv p hpar) hpS
          have htr : t ∈ rest := by
            cases List.mem_cons.mp ht with
            | inl h' => exact absurd htS (h' ▸ hnS)
            | inr h' => exact h'
          refine ⟨n, rfl, hnS, t, ?_, htS⟩
          cases full <;> simp [htr]
        · rw [nextLoop_eq_push _ _ _ _ _ _ hv hcv] at h
          exact ih _ r t (by simp [ht]) htS h

theorem nextLoop_subset (m : Model) (full : Bool) (vis U : List Nat)
    (hUm : ∀ x ∈ modelUniverse m, x ∈ U) (hvis : ∀ x ∈ vis, x ∈ U) :
    ∀ (fuel : Nat) (stack : List Nat) (r : Option Nat × List Nat × List Nat),
      (∀ x ∈ stack, x ∈ U) → nextLoop m full fuel stack vis = some r →
      (∀ x ∈ r.2.1, x ∈ U) ∧ (∀ x ∈ r.2.2, x ∈ U) := by
  intro fuel
  induction fuel with
  | zero =>
    intro stack r _ h
    rw [nextLoop_zero] at h
    exact absurd h (by simp)
  | succ fuel ih =>
    intro stack r hstk h
    cases stack with
    | nil =>
      rw [nextLoop_eq_nil] at h
      obtain rfl := Option.some.inj h
      exact ⟨by simp, hvis⟩
    | cons n rest =>
      by_cases hv : n ∈ vis
      · rw [nextLoop_eq_pop _ _ _ _ _ _ hv] at h
        exact ih rest r (fun x hx => hstk x (List.mem_cons_of_mem n hx)) h
      · by_cases hcv : ∀ p ∈ parentsOf m n, p ∈ vis
        · rw [nextLoop_eq_emit _ _ _ _ _ _ hv hcv] at h
          obtain rfl := Option.some.inj h
          constructor
          · intro x hx
            cases full with
            | false =>
              exact hstk x (List.mem_cons_of_mem n (by simpa using hx))
            | true =>
              rcases List.mem_append.mp (by simpa using hx) with hd | hr
              · exact hUm x (depsOf_universe m n x hd)
              · exact hstk x (List.mem_cons_of_mem n hr)
          · intro x hx
            rcases List.mem_cons.mp hx with rfl | hx'
            · exact hstk x (List.mem_cons_self x rest)
            · exact hvis x hx'
        · rw [nextLoop_eq_push _ _ _ _ _ _ hv hcv] at h
          refine ih _ r ?_ h
          intro x hx
          rcases List.mem_append.mp hx with hp | hs
          · exact hUm x (parentsOf_universe m n x ((mem_pushedParents m n x).mp hp))
          · exact hstk x hs

theorem nextLoop_closed (m : Model) (vis : List Nat) (A : Nat → Prop)
    (hA : ∀ n p, p ∈ parentsOf m n → A n → A p) (hvis : ∀ x ∈ vis, A x) :
    ∀ (fuel : Nat) (stack : List Nat) (r : Option Nat × List Nat × List Nat),
      (∀ x ∈ stack, A x) → nextLoop m false fuel stack vis = some r →
      (∀ x ∈ r.2.1, A x) ∧ (∀ x ∈ r.2.2, A x) := by
  intro fuel
  induction fuel with
  | zero =>
    intro stack r _ h
    rw [nextLoop_zero] at h
    exact absurd h (by simp)
  | succ fuel ih =>
    intro stack r hstk h
    cases stack with
    | nil =>
      rw [nextLoop_eq_nil] at h
      obtain rfl := Option.some.inj h
      exact ⟨by simp, hvis⟩
    | cons n rest =>
      by_cases hv : n ∈ vis
      · rw [nextLoop_eq_pop _ _ _ _ _ _ hv] at h
        exact ih rest r (fun x hx => hstk x (List.mem_cons_of_mem n hx)) h
      · by_cases hcv : ∀ p ∈ parentsOf m n, p ∈ vis
        · rw [nextLoop_eq_emit _ _ _ _ _ _ hv hcv] at h
          obtain rfl := Option.some.inj h
          constructor
          · intro x hx
            exact hstk x (List.mem_cons_of_mem n (by simpa using hx))
          · intro x hx
            rcases List.mem_cons.mp hx with rfl | hx'
            · exact hstk x (List.mem_cons_self x rest)
            · exact hvis x hx'
        · rw [nextLoop_eq_push _ _ _ _ _ _ hv hcv] at h
          refine ih _ r ?_ h
          intro x hx
          rcases List.mem_append.mp hx with hp | hs
          · exact hA n x ((mem_pushedParents m n x).mp hp)
              (hstk n (List.mem_cons_self n rest))
          · exact hstk x hs

theorem nextLoop_cover (m : Model) (full : Bool) (vis : List Nat) (o : Nat) :
    ∀ (fuel : Nat) (stack : List Nat) (r : Option Nat × List Nat × List Nat),
      (o ∈ vis ∨ o ∈ stack) → nextLoop m full fuel stack vis = some r →
      o ∈ r.2.2 ∨ o ∈ r.2.1 := by
  intro fuel
  induction fuel with
  | zero =>
    intro stack r _ h
    rw [nextLoop_zero] at h
    exact absurd h (by simp)
  | succ fuel ih =>
    intro stack r ho h
    cases stack with
    | nil =>
      rw [nextLoop_eq_nil] at h
      obtain rfl := Option.some.inj h
      rcases ho with hv | hs
      · exact Or.inl hv
      · exact absurd hs (by simp)
    | cons n rest =>
      by_cases hv : n ∈ vis
      · rw [nextLoop_eq_pop _ _ _ _ _ _ hv] at h
        refine ih rest r ?_ h
        rcases ho with h' | h'
        · exact Or.inl h'
        · rcases List.mem_cons.mp h' with rfl | h''
          · exact Or.inl hv
          · exact Or.inr h''
      · by_cases hcv : ∀ p ∈ parentsOf m n, p ∈ vis
        · rw [nextLoop_eq_emit _ _ _ _ _ _ hv hcv] at h
          obtain rfl := Option.some.inj h
          rcases ho with h' | h'
          · exact Or.inl (List.mem_cons_of_mem n h')
          · rcases List.mem_cons.mp h' with rfl | h''
            · exact Or.inl (List.mem_cons_self o vis)
            · refine Or.inr ?_
              cases full <;> simp [h'']
        · rw [nextLoop_eq_push _ _ _ _ _ _ hv hcv] at h
          refine ih _ r ?_ h
          rcases ho with h' | h'
          · exact Or.inl h'
          · exact Or.inr (List.mem_append_right _ h')

theorem nextLoop_parentClosed (m : Model) (full : Bool) (vis : List Nat)
    (hvis : ∀ x ∈ vis, ∀ p ∈ parentsOf m x, p ∈ vis) :
    ∀ (fuel : Nat) (stack : List Nat) (r : Option Nat × List Nat × List Nat),
      nextLoop m full fuel stack vis = some r →
      ∀ x ∈ r.2.2, ∀ p ∈ parentsOf m x, p ∈ r.2.2 := by
  intro fuel stack r h
  rcases nextLoop_some_spec m full vis fuel stack r h with
    ⟨-, -, hv⟩ | ⟨n, -, -, hpar, hv⟩
  · rw [hv]; exact hvis
  · rw [hv]
    intro x hx p hp
    rcases List.mem_cons.mp hx with rfl | hx'
    · exact List.mem_cons_of_mem _ (hpar p hp)
    · exact List.mem_cons_of_mem _ (hvis x hx' p hp)

theorem nextLoop_depsInv (m : Model) (vis : List Nat) :
    ∀ (fuel : Nat) (stack : List Nat) (r : Option Nat × List Nat × List Nat),
      (∀ x ∈ vis, ∀ d ∈ depsOf m x, d ∈ vis ∨ d ∈ stack) →
      nextLoop m true fuel stack vis = some r →
      ∀ x ∈ r.2.2, ∀ d ∈ depsOf m x, d ∈ r.2.2 ∨ d ∈ r.2.1 := by
  intro fuel
  induction fuel with
  | zero =>
    intro stack r _ h
    rw [nextLoop_zero] at h
    exact absurd h (by simp)
  | succ fuel ih =>
    intro stack r hinv h
    cases stack with
    | nil =>
      rw [nextLoop_eq_nil] at h
      obtain rfl := Option.some.inj h
      intro x hx d hd
      rcases hinv x hx d hd with h' | h'
      · exact Or.inl h'
      · exact absurd h' (by simp)
    | cons n rest =>
      by_cases hv : n ∈ vis
      · rw [nextLoop_eq_pop _ _ _ _ _ _ hv] at h
        refine ih rest r ?_ h
        intro x hx d hd
        rcases hinv x hx d hd with h' | h'
        · exact Or.inl h'
        · rcases List.mem_cons.mp h' with rfl | h''
          · exact Or.inl hv
          · exact Or.inr h''
      · by_cases hcv : ∀ p ∈ parentsOf m n, p ∈ vis
        · rw [nextLoop_eq_emit _ _ _ _ _ _ hv hcv] at h
          obtain rfl := Option.some.inj h
          intro x hx d hd
          rcases List.mem_cons.mp hx with rfl | hx'
          · exact Or.inr (by simp [hd])
          · rcases hinv x hx' d hd with h' | h'
            · exact Or.inl (List.mem_cons_of_mem n h')
            · rcases List.mem_cons.mp h' with rfl | h''
              · exact Or.inl (List.mem_cons_self d vis)
              · exact Or.inr (by simp [h''])
        · rw [nextLoop_eq_push _ _ _ _ _ _ hv hcv] at h
          refine ih _ r ?_ h
          intro x hx d hd
          rcases hinv x hx d hd with h' | h'
          · exact Or.inl h'
          · exact Or.inr (List.mem_append_right _ h')

/-! ## Termination of the `Next` loop on acyclic graphs -/

theorem meas_cons_mem (rank : Nat → Nat) (vis : List Nat) (n : Nat)
    (rest : List Nat) (h : n ∈ vis) :
    meas rank vis (n :: rest) =
      ((meas rank vis rest).1, (meas rank vis rest).2 + 1) := by
  show (if n ∈ vis then _ else _) = _
  rw [if_pos h]

theorem meas_cons_not_mem (rank : Nat → Nat) (vis : List Nat) (n : Nat)
    (rest : List Nat) (h : n ∉ vis) :
    meas rank vis (n :: rest) = (rank n + 1, 0) := by
  show (if n ∈ vis then _ else _) = _
  rw [if_neg h]

theorem meas_append_unvisited (rank : Nat → Nat) (vis : List Nat) :
    ∀ (L s : List Nat), (∃ x ∈ L, x ∉ vis) →
      ∃ p, p ∈ L ∧ p ∉ vis ∧ (meas rank vis (L ++ s)).1 = rank p + 1 := by
  intro L
  induction L with
  | nil =>
    rintro s ⟨x, hx, -⟩
    exact absurd hx (by simp)
  | cons hd L ih =>
    rintro s ⟨x, hx, hxv⟩
    by_cases hhv : hd ∈ vis
    · have hxL : x ∈ L := by
        rcases List.mem_cons.mp hx with rfl | h'
        · exact absurd hhv hxv
        · exact h'
      obtain ⟨p, hp, hpv, hfst⟩ := ih s ⟨x, hxL, hxv⟩
      refine ⟨p, List.mem_cons_of_mem hd hp, hpv, ?_⟩
      rw [List.cons_append, meas_cons_mem rank vis hd (L ++ s) hhv]
      exact hfst
    · refine ⟨hd, List.mem_cons_self hd L, hhv, ?_⟩
      rw [List.cons_append, meas_cons_not_mem rank vis hd (L ++ s) hhv]

theorem nextLoop_terminates (m : Model) (full : Bool) (rank : Nat → Nat)
    (hr : ∀ n p : Nat, p ∈ parentsOf m n → rank p < rank n) :
    ∀ (a b : Nat) (stack vis : List Nat),
      (meas rank vis stack).1 = a → (meas rank vis stack).2 = b →
      ∃ fuel, (nextLoop m full fuel stack vis).isSome = true := by
  intro a
  induction a using Nat.strong_induction_on with
  | _ a iha =>
    intro b
    induction b using Nat.strong_induction_on with
    | _ b ihb =>
      intro stack vis ha hb
      cases stack with
      | nil => exact ⟨1, by rw [nextLoop_eq_nil]; rfl⟩
      | cons n rest =>
        by_cases hv : n ∈ vis
        · rw [meas_cons_mem rank vis n rest hv] at ha hb
          obtain ⟨fuel, hf⟩ :=
            ihb (meas rank vis rest).2 (by omega) rest vis ha rfl
          exact ⟨fuel + 1, by rw [nextLoop_eq_pop _ _ _ _ _ _ hv]; exact hf⟩
        · by_cases hcv : ∀ p ∈ parentsOf m n, p ∈ vis
          · exact ⟨1, by rw [nextLoop_eq_emit _ _ _ _ _ _ hv hcv]; rfl⟩
          · rw [meas_cons_not_mem rank vis n rest hv] at ha
            have hcv2 := hcv
            push_neg at hcv2
            obtain ⟨p0, hp0, hp0v⟩ := hcv2
            have hex : ∃ x ∈ (getNodeD m n).inputPorts.flatMap
                (fun port => port.reverse), x ∉ vis :=
              ⟨p0, (mem_pushedParents m n p0).mpr hp0, hp0v⟩
            obtain ⟨q, hqL, hqv, hfst⟩ :=
              meas_append_unvisited rank vis _ (n :: rest) hex
            have hq_par : q ∈ parentsOf m n := (mem_pushedParents m n q).mp hqL
            have hlt : rank q + 1 < a := by
              have := hr n q hq_par
              omega
            obtain ⟨fuel, hf⟩ :=
              iha (rank q + 1) hlt (meas rank vis
                ((getNodeD m n).inputPorts.flatMap (fun port => port.reverse)
                  ++ (n :: rest))).2 _ vis hfst rfl
            exact ⟨fuel + 1, by rw [nextLoop_eq_push _ _ _ _ _ _ hv hcv]; exact hf⟩

/-! ## `Next` on iterator states, and the run bookkeeping -/

theorem Next_eq_some (m : Model) (fuel : Nat) (s s' : NodeIterator)
    (h : Next m fuel s = some s') :
    ∃ r : Option Nat × List Nat × List Nat,
      nextLoop m s.visitFullModel fuel s.stack s.visited = some r ∧
      s' = ⟨r.2.1, r.2.2, r.1, s.visitFullModel⟩ := by
  unfold Next at h
  cases hr : nextLoop m s.visitFullModel fuel s.stack s.visited with
  | none => rw [hr] at h; exact absurd h (by simp)
  | some r =>
    rw [hr] at h
    exact ⟨r, rfl, (Option.some.inj h).symm⟩

theorem Next_mono (m : Model) (fuel fuel' : Nat) (s s' : NodeIterator)
    (hle : fuel ≤ fuel') (h : Next m fuel s = some s') :
    Next m fuel' s = some s' := by
  obtain ⟨r, hr, rfl⟩ := Next_eq_some m fuel s _ h
  unfold Next
  rw [nextLoop_mono m s.visitFullModel s.visited fuel fuel' s.stack r hle hr]
  rfl

theorem Next_terminates (m : Model) (hacy : AcyclicModel m) (s : NodeIterator) :
    ∃ fuel s', Next m fuel s = some s' := by
  obtain ⟨rank, hr⟩ := hacy
  obtain ⟨fuel, hf⟩ := nextLoop_terminates m s.visitFullModel rank hr
    (meas rank s.visited s.stack).1 (meas rank s.visited s.stack).2
    s.stack s.visited rfl rfl
  cases hnl : nextLoop m s.visitFullModel fuel s.stack s.visited with
  | none => rw [hnl] at hf; simp at hf
  | some r =>
    refine ⟨fuel, ⟨r.2.1, r.2.2, r.1, s.visitFullModel⟩, ?_⟩
    unfold Next
    rw [hnl]
    rfl

theorem stateOK_next (m : Model) (fuel : Nat) (s s' : NodeIterator)
    (seen : List Nat) (c : Nat) (hok : StateOK m s seen)
    (hc : s.currentNode = some c) (hnext : Next m fuel s = some s') :
    StateOK m s' (seen ++ [c]) := by
  obtain ⟨hiff, hfresh, hpar⟩ := hok.1 c hc
  obtain ⟨r, hr, rfl⟩ := Next_eq_some m fuel s s' hnext
  rcases nextLoop_some_spec m s.visitFullModel s.visited fuel s.stack r hr with
    ⟨h1, h2, h3⟩ | ⟨n, h1, h2, h3, h4⟩
  · constructor
    · intro c' hc'
      rw [show (⟨r.2.1, r.2.2, r.1, s.visitFullModel⟩ :
          NodeIterator).currentNode = r.1 from rfl, h1] at hc'
      exact absurd hc' (by simp)
    · intro _
      refine ⟨?_, h2⟩
      intro x
      show x ∈ r.2.2 ↔ _
      rw [h3, hiff x, List.mem_append, List.mem_singleton]
      exact or_comm
  · constructor
    · intro c' hc'
      rw [show (⟨r.2.1, r.2.2, r.1, s.visitFullModel⟩ :
          NodeIterator).currentNode = r.1 from rfl, h1] at hc'
      obtain rfl := Option.some.inj hc'
      refine ⟨?_, ?_, ?_⟩
      · intro x
        show x ∈ r.2.2 ↔ _
        rw [h4, List.mem_cons, hiff x, List.mem_append, List.mem_singleton]
        tauto
      · intro hn
        apply h2
        rw [hiff n]
        rcases List.mem_append.mp hn with h' | h'
        · exact Or.inr h'
        · exact Or.inl (by simpa using h')
      · intro p hp
        have hpv := h3 p hp
        rw [hiff p] at hpv
        rcases hpv with h' | h'
        · rw [h']
          exact List.mem_append_right _ (by simp)
        · exact List.mem_append_left _ h'
    · intro hc'
      rw [show (⟨r.2.1, r.2.2, r.1, s.visitFullModel⟩ :
          NodeIterator).currentNode = r.1 from rfl, h1] at hc'
      exact absurd hc' (by simp)

theorem stateOK_preNext (m : Model) (fuel : Nat) (full : Bool)
    (stack : List Nat) (s : NodeIterator)
    (h : Next m fuel ⟨stack, [], none, full⟩ = some s) : StateOK m s [] := by
  obtain ⟨r, hr, rfl⟩ := Next_eq_some m fuel _ s h
  rcases nextLoop_some_spec m full [] fuel stack r hr with
    ⟨h1, h2, h3⟩ | ⟨n, h1, h2, h3, h4⟩
  · constructor
    · intro c' hc'
      rw [show (⟨r.2.1, r.2.2, r.1,
          (⟨stack, [], none, full⟩ : NodeIterator).visitFullModel⟩ :
          NodeIterator).currentNode = r.1 from rfl, h1] at hc'
      exact absurd hc' (by simp)
    · intro _
      exact ⟨fun x => by show x ∈ r.2.2 ↔ _; rw [h3], h2⟩
  · constructor
    · intro c' hc'
      rw [show (⟨r.2.1, r.2.2, r.1,
          (⟨stack, [], none, full⟩ : NodeIterator).visitFullModel⟩ :
          NodeIterator).currentNode = r.1 from rfl, h1] at hc'
      obtain rfl := Option.some.inj hc'
      refine ⟨?_, by simp, h3⟩
      intro x
      show x ∈ r.2.2 ↔ _
      rw [h4]
      simp
    · intro hc'
      rw [show (⟨r.2.1, r.2.2, r.1,
          (⟨stack, [], none, full⟩ : NodeIterator).visitFullModel⟩ :
          NodeIterator).currentNode = r.1 from rfl, h1] at hc'
      exact absurd hc' (by simp)

theorem stateOK_empty (m : Model) : StateOK m ⟨[], [], none, false⟩ [] := by
  constructor
  · intro c hc
    exact absurd hc (by simp)
  · intro _
    exact ⟨by simp, rfl⟩

theorem initIterator_stateOK (m : Model) (outputs : List Nat) (fuel : Nat)
    (s : NodeIterator) (h : initIterator m outputs fuel = some s) :
    StateOK m s [] := by
  by_cases hlen : m.length = 0
  · unfold initIterator at h
    rw [if_pos hlen] at h
    exact (Option.some.inj h) ▸ stateOK_empty m
  · by_cases hout : outputs.isEmpty
    · unfold initIterator at h
      rw [if_neg hlen, if_pos hout] at h
      cases m with
      | nil => simp at hlen
      | cons e tail =>
        replace h : initIteratorFrom (e :: tail) e.2.id fuel = some s := h
        unfold initIteratorFrom at h
        rw [if_neg hlen] at h
        cases hfl : findLeaf (e :: tail) fuel e.2.id with
        | none => rw [hfl] at h; exact absurd h (by simp)
        | some leaf =>
          rw [hfl, Option.some_bind] at h
          exact stateOK_preNext _ fuel true [leaf] s h
    · unfold initIterator at h
      rw [if_neg hlen, if_neg hout] at h
      exact stateOK_preNext m fuel false outputs.reverse s h

theorem runIter_none (m : Model) (fuel calls : Nat) :
    runIter m fuel calls none = ([], .fuelOut) := by
  cases calls <;> rfl

theorem runIter_zero (m : Model) (fuel : Nat) (s : NodeIterator) :
    runIter m fuel 0 (some s) = ([], .callsOut) := rfl

theorem runIter_succ (m : Model) (fuel calls : Nat) (s : NodeIterator) :
    runIter m fuel (calls + 1) (some s) =
      match s.currentNode with
      | none => ([], .exhausted)
      | some n =>
        (n :: (runIter m fuel calls (Next m fuel s)).1,
          (runIter m fuel calls (Next m fuel s)).2) := rfl

theorem runIter_succ_none (m : Model) (fuel calls : Nat) (s : NodeIterator)
    (h : s.currentNode = none) :
    runIter m fuel (calls + 1) (some s) = ([], .exhausted) := by
  rw [runIter_succ, h]

theorem runIter_succ_some (m : Model) (fuel calls : Nat) (s : NodeIterator)
    (n : Nat) (h : s.currentNode = some n) :
    runIter m fuel (calls + 1) (some s) =
      (n :: (runIter m fuel calls (Next m fuel s)).1,
        (runIter m fuel calls (Next m fuel s)).2) := by
  rw [runIter_succ, h]

theorem runIter_sound (m : Model) (fuel : Nat) :
    ∀ (calls : Nat) (s : NodeIterator) (seen : List Nat),
      StateOK m s seen → seen.Nodup →
      (seen ++ (runIter m fuel calls (some s)).1).Nodup ∧
        parentsBeforeAux m seen (runIter m fuel calls (some s)).1 = true := by
  intro calls
  induction calls with
  | zero =>
    intro s seen hok hnd
    rw [runIter_zero]
    exact ⟨by simpa using hnd, rfl⟩
  | succ calls ih =>
    intro s seen hok hnd
    cases hc : s.currentNode with
    | none =>
      rw [runIter_succ_none m fuel calls s hc]
      exact ⟨by simpa using hnd, rfl⟩
    | some c =>
      rw [runIter_succ_some m fuel calls s c hc]
      obtain ⟨hiff, hfresh, hpar⟩ := hok.1 c hc
      have hnd' : (seen ++ [c]).Nodup := by
        rw [List.nodup_append]
        refine ⟨hnd, by simp, ?_⟩
        intro a ha hac
        rw [List.mem_singleton] at hac
        exact hfresh (hac ▸ ha)
      have hpb : (parentsOf m c).all (fun p => seen.contains p) = true := by
        rw [List.all_eq_true]
        intro p hp
        simpa using hpar p hp
      cases hnx : Next m fuel s with
      | none =>
        rw [runIter_none]
        constructor
        · simpa using hnd'
        · show parentsBeforeAux m seen [c] = true
          simp [parentsBeforeAux, hpb]
          exact hpar
      | some s' =>
        have hok' := stateOK_next m fuel s s' seen c hok hc hnx
        obtain ⟨ih1, ih2⟩ := ih s' (seen ++ [c]) hok' hnd'
        constructor
        · simpa using ih1
        · show parentsBeforeAux m seen
            (c :: (runIter m fuel calls (some s')).1) = true
          simp only [parentsBeforeAux, Bool.and_eq_true]
          exact ⟨hpb, ih2⟩

/-- Derives acyclicity from a rank check over the container's entries
(decidable on a concrete container). -/
theorem acyclicModel_of_entries (m : Model) (rank : Nat → Nat)
    (h : ∀ e ∈ m, ∀ port ∈ e.2.inputPorts, ∀ p ∈ port, rank p < rank e.1) :
    AcyclicModel m := by
  refine ⟨rank, fun n p hp => ?_⟩
  obtain ⟨nd, hmem, hflat⟩ := parentsOf_cases m n p hp
  rw [List.mem_flatMap] at hflat
  obtain ⟨port, hport, hp'⟩ := hflat
  exact h (n, nd) hmem port hport p hp'

/-- C1: on an acyclic graph held by the container, the iterator — in
restricted mode (non-empty `outputs`) or whole-graph mode (empty `outputs`)
— emits no node twice, and every node it emits had every parent on every
one of its input ports (hence, transitively, every ancestor) emitted
strictly earlier, whatever loop fuel and call budget the run is given. -/
theorem iterator_topological (m : Model) (outputs : List Nat)
    (fuel calls : Nat) (hacy : AcyclicModel m) :
    (emitList m outputs fuel calls).Nodup ∧
      parentsBeforeAux m [] (emitList m outputs fuel calls) = true := by
  unfold emitList
  cases hi : initIterator m outputs fuel with
  | none => rw [runIter_none]; exact ⟨List.nodup_nil, rfl⟩
  | some s =>
    have h := runIter_sound m fuel calls s []
      (initIterator_stateOK m outputs fuel s hi) List.nodup_nil
    simpa using h

/-- Witness for C1 on the diamond graph with output node 4. -/
theorem iterator_topological_witness :
    (emitList diamond [4] 30 10).Nodup ∧
      parentsBeforeAux diamond [] (emitList diamond [4] 30 10) = true :=
  iterator_topological diamond [4] 30 10
    (acyclicModel_of_entries diamond (fun n => n) (by decide))

/-! ## Non-termination on cycles, and bounded emission -/

theorem Next_trapped (m : Model) (S : List Nat)
    (htrap : ∀ n ∈ S, ∃ p ∈ S, p ∈ parentsOf m n) (fuel : Nat)
    (s s' : NodeIterator) (t : Nat) (ht : t ∈ s.stack) (htS : t ∈ S)
    (hdis : ∀ x ∈ s.visited, x ∉ S) (h : Next m fuel s = some s') :
    (∃ n, s'.currentNode = some n) ∧ (∃ t' ∈ s'.stack, t' ∈ S) ∧
      ∀ x ∈ s'.visited, x ∉ S := by
  obtain ⟨r, hr, rfl⟩ := Next_eq_some m fuel s s' h
  obtain ⟨n, h1, h2, h3⟩ := nextLoop_trapped m s.visitFullModel S s.visited
    htrap hdis fuel s.stack r t ht htS hr
  refine ⟨⟨n, h1⟩, h3, ?_⟩
  rcases nextLoop_some_spec m s.visitFullModel s.visited fuel s.stack r hr with
    ⟨h4, -, -⟩ | ⟨n', h4, -, -, h5⟩
  · rw [h4] at h1; exact absurd h1 (by simp)
  · have : n' = n := by
      rw [h4] at h1
      exact Option.some.inj h1
    subst this
    show ∀ x ∈ r.2.2, x ∉ S
    rw [h5]
    intro x hx
    rcases List.mem_cons.mp hx with rfl | hx'
    · exact h2
    · exact hdis x hx'

theorem runIter_never_exhausts (m : Model) (S : List Nat)
    (htrap : ∀ n ∈ S, ∃ p ∈ S, p ∈ parentsOf m n) :
    ∀ (calls fuel : Nat) (s : NodeIterator),
      (∃ t ∈ s.stack, t ∈ S) → (∀ x ∈ s.visited, x ∉ S) →
      s.currentNode ≠ none →
      (runIter m fuel calls (some s)).2 ≠ .exhausted := by
  intro calls
  induction calls with
  | zero =>
    intro fuel s _ _ _
    rw [runIter_zero]
    simp
  | succ calls ih =>
    rintro fuel s ⟨t, ht, htS⟩ hdis hcur
    cases hc : s.currentNode with
    | none => exact absurd hc hcur
    | some c =>
      rw [runIter_succ_some m fuel calls s c hc]
      cases hnx : Next m fuel s with
      | none => rw [runIter_none]; simp
      | some s' =>
        obtain ⟨⟨n, hn1⟩, hS', hdis'⟩ :=
          Next_trapped m S htrap fuel s s' t ht htS hdis hnx
        exact ih fuel s' hS' hdis' (by rw [hn1]; simp)

theorem runIter_callsOut_length (m : Model) (fuel : Nat) :
    ∀ (calls : Nat) (os : Option NodeIterator),
      (runIter m fuel calls os).2 = .callsOut →
      (runIter m fuel calls os).1.length = calls := by
  intro calls
  induction calls with
  | zero =>
    intro os h
    cases os with
    | none => rfl
    | some s => rfl
  | succ calls ih =>
    intro os h
    cases os with
    | none =>
      rw [runIter_none] at h
      exact absurd h (by simp)
    | some s =>
      cases hc : s.currentNode with
      | none =>
        rw [runIter_succ_none m fuel calls s hc] at h
        exact absurd h (by simp)
      | some c =>
        rw [runIter_succ_some m fuel calls s c hc] at h ⊢
        show ((runIter m fuel calls (Next m fuel s)).1).length + 1 = calls + 1
        rw [ih (Next m fuel s) h]

theorem runIter_emits_mem (m : Model) (U : List Nat)
    (hUm : ∀ x ∈ modelUniverse m, x ∈ U) :
    ∀ (calls fuel : Nat) (s : NodeIterator),
      (∀ x ∈ s.stack, x ∈ U) → (∀ x ∈ s.visited, x ∈ U) →
      (∀ c, s.currentNode = some c → c ∈ U) →
      ∀ x ∈ (runIter m fuel calls (some s)).1, x ∈ U := by
  intro calls
  induction calls with
  | zero =>
    intro fuel s _ _ _ x hx
    rw [runIter_zero] at hx
    exact absurd hx (by simp)
  | succ calls ih =>
    intro fuel s hstk hvis hcur x hx
    cases hc : s.currentNode with
    | none =>
      rw [runIter_succ_none m fuel calls s hc] at hx
      exact absurd hx (by simp)
    | some c =>
      rw [runIter_succ_some m fuel calls s c hc] at hx
      rcases List.mem_cons.mp hx with rfl | hx'
      · exact hcur x hc
      · cases hnx : Next m fuel s with
        | none => rw [hnx, runIter_none] at hx'; exact absurd hx' (by simp)
        | some s' =>
          rw [hnx] at hx'
          obtain ⟨r, hr, rfl⟩ := Next_eq_some m fuel s s' hnx
          obtain ⟨hst', hvs'⟩ := nextLoop_subset m s.visitFullModel s.visited U
            hUm hvis fuel s.stack r hstk hr
          refine ih fuel _ hst' hvs' ?_ x hx'
          intro c' hc'
          rcases nextLoop_some_spec m s.visitFullModel s.visited fuel s.stack
            r hr with ⟨h4, -, -⟩ | ⟨n', h4, -, -, h5⟩
          · rw [show (⟨r.2.1, r.2.2, r.1, s.visitFullModel⟩ :
                NodeIterator).currentNode = r.1 from rfl, h4] at hc'
            exact absurd hc' (by simp)
          · rw [show (⟨r.2.1, r.2.2, r.1, s.visitFullModel⟩ :
                NodeIterator).currentNode = r.1 from rfl, h4] at hc'
            obtain rfl := Option.some.inj hc'
            exact hvs' _ (by rw [h5]; exact List.mem_cons_self _ s.visited)

theorem length_le_of_nodup_subset (L U : List Nat) (hnd : L.Nodup)
    (hsub : ∀ x ∈ L, x ∈ U) : L.length ≤ U.length :=
  List.Subperm.length_le (List.Nodup.subperm hnd hsub)

theorem Next_state_subset (m : Model) (U : List Nat)
    (hUm : ∀ x ∈ modelUniverse m, x ∈ U) (fuel : Nat) (s s' : NodeIterator)
    (hstk : ∀ x ∈ s.stack, x ∈ U) (hvis : ∀ x ∈ s.visited, x ∈ U)
    (h : Next m fuel s = some s') :
    (∀ x ∈ s'.stack, x ∈ U) ∧ (∀ x ∈ s'.visited, x ∈ U) ∧
      ∀ c, s'.currentNode = some c → c ∈ U := by
  obtain ⟨r, hr, rfl⟩ := Next_eq_some m fuel s s' h
  obtain ⟨hst', hvs'⟩ := nextLoop_subset m s.visitFullModel s.visited U hUm
    hvis fuel s.stack r hstk hr
  refine ⟨hst', hvs', ?_⟩
  intro c hc
  rcases nextLoop_some_spec m s.visitFullModel s.visited fuel s.stack r hr with
    ⟨h4, -, -⟩ | ⟨n', h4, -, -, h5⟩
  · rw [show (⟨r.2.1, r.2.2, r.1, s.visitFullModel⟩ :
        NodeIterator).currentNode = r.1 from rfl, h4] at hc
    exact absurd hc (by simp)
  · rw [show (⟨r.2.1, r.2.2, r.1, s.visitFullModel⟩ :
        NodeIterator).currentNode = r.1 from rfl, h4] at hc
    obtain rfl := Option.some.inj hc
    exact hvs' _ (by rw [h5]; exact List.mem_cons_self _ s.visited)

/-- C2 counterexample: the dependency relation of `mCyc` contains a cycle
(nodes 2 and 3 are each other's port parents), yet iterating with output
node 1 has every `Next` call return: the run emits node 1 and then reports
exhaustion.  A cycle somewhere in the dependency relation therefore does
not by itself make repeated `Next` calls loop forever. -/
theorem next_cycle_terminates_counterexample :
    (3 ∈ parentsOf mCyc 2 ∧ 2 ∈ parentsOf mCyc 3) ∧
      emitList mCyc [1] 10 5 = [1] ∧ emitEnd mCyc [1] 10 5 = .exhausted := by
  decide

/-- C2 (amended): `Next` terminates — some finite fuel completes its loop —
from every state over a container whose dependency relation is acyclic.
Conversely, when the iterator is seeded with an output node that lies on or
transitively depends on a dependency cycle (a member of a non-empty set in
which every node has a parent inside the set), the run never reports
exhaustion: whatever fuel each call gets, at most boundedly many nodes are
ever emitted, and with more calls than that bound the run always ends in an
uncompleted `Next` call — the loop re-pushes unresolved ancestors forever
instead of returning. -/
theorem next_termination_dichotomy :
    (∀ m : Model, AcyclicModel m →
      ∀ s : NodeIterator, ∃ fuel, (Next m fuel s).isSome = true) ∧
    (∀ (m : Model) (S outputs : List Nat), Trapped m S →
      (∃ t ∈ outputs, t ∈ S) →
      ∀ fuel calls : Nat,
        emitEnd m outputs fuel calls ≠ .exhausted ∧
        (emitList m outputs fuel calls).length ≤
          (outputs ++ modelUniverse m).length ∧
        ((outputs ++ modelUniverse m).length < calls →
          emitEnd m outputs fuel calls = .fuelOut)) := by
  constructor
  · intro m hacy s
    obtain ⟨fuel, s', h⟩ := Next_terminates m hacy s
    exact ⟨fuel, by rw [h]; rfl⟩
  · rintro m S outputs ⟨hS0, htrap⟩ ⟨t, htout, htS⟩ fuel calls
    have hmne : ¬ (m.length = 0) := by
      obtain ⟨p, hpS, hpar⟩ := htrap t htS
      have hk := parentsOf_key m t p hpar
      intro he
      rw [List.length_eq_zero] at he
      subst he
      simp [keysOf] at hk
    have hout : ¬ (outputs.isEmpty = true) := by
      cases outputs with
      | nil => exact absurd htout (by simp)
      | cons a l => simp
    have hinit : initIterator m outputs fuel =
        Next m fuel ⟨outputs.reverse, [], none, false⟩ := by
      unfold initIterator
      rw [if_neg hmne, if_neg hout]
    have hU : ∀ x ∈ modelUniverse m, x ∈ outputs ++ modelUniverse m :=
      fun x hx => List.mem_append_right _ hx
    unfold emitEnd emitList
    rw [hinit]
    cases hnx : Next m fuel ⟨outputs.reverse, [], none, false⟩ with
    | none =>
      rw [runIter_none]
      exact ⟨by simp, by simp, fun _ => rfl⟩
    | some s1 =>
      have hpre_stack : t ∈ (⟨outputs.reverse, [], none, false⟩ :
          NodeIterator).stack := by
        show t ∈ outputs.reverse
        rw [List.mem_reverse]
        exact htout
      obtain ⟨⟨c1, hc1⟩, hS1, hdis1⟩ := Next_trapped m S htrap fuel _ s1 t
        hpre_stack htS (fun x hx => absurd hx (by simp)) hnx
      have hok1 : StateOK m s1 [] :=
        stateOK_preNext m fuel false outputs.reverse s1 hnx
      have hnodup : ((runIter m fuel calls (some s1)).1).Nodup := by
        have h' := (runIter_sound m fuel calls s1 [] hok1 List.nodup_nil).1
        simpa using h'
      obtain ⟨hst1, hvs1, hcu1⟩ := Next_state_subset m
        (outputs ++ modelUniverse m) hU fuel _ s1
        (fun x hx => List.mem_append_left _ (List.mem_reverse.mp hx))
        (fun x hx => absurd hx (by simp)) hnx
      have hsubL := runIter_emits_mem m (outputs ++ modelUniverse m) hU calls
        fuel s1 hst1 hvs1 hcu1
      have hlen := length_le_of_nodup_subset _ _ hnodup hsubL
      have hnex := runIter_never_exhausts m S htrap calls fuel s1 hS1 hdis1
        (by rw [hc1]; simp)
      refine ⟨hnex, hlen, ?_⟩
      intro hlt
      cases hend : (runIter m fuel calls (some s1)).2 with
      | exhausted => exact absurd hend hnex
      | fuelOut => rfl
      | callsOut =>
        have hcl := runIter_callsOut_length m fuel calls (some s1) hend
        omega

/-- Witness for C2: the acyclic half applied to the diamond graph, the
cyclic half applied to `mCyc` seeded with the on-cycle node 3, via the
trapped set of cycle nodes 2 and 3. -/
theorem next_termination_dichotomy_witness :
    (∃ fuel, (Next diamond fuel ⟨[4], [], none, false⟩).isSome = true) ∧
      (emitEnd mCyc [3] 5 20 ≠ .exhausted ∧
        (emitList mCyc [3] 5 20).length ≤ ([3] ++ modelUniverse mCyc).length ∧
        (([3] ++ modelUniverse mCyc).length < 20 →
          emitEnd mCyc [3] 5 20 = .fuelOut)) :=
  ⟨next_termination_dichotomy.1 diamond
      (acyclicModel_of_entries diamond (fun n => n) (by decide))
      ⟨[4], [], none, false⟩,
    next_termination_dichotomy.2 mCyc [2, 3] [3] ⟨by decide, by decide⟩
      ⟨3, by decide, by decide⟩ 5 20⟩

/-! ## Claim theorems: serialization context and container map -/

theorem mapFind_setObjectState_not_mem (m : Model) (desc : List GNode)
    (k : Nat) (h : k ∉ desc.map (fun nd => nd.id)) :
    mapFind (SetObjectState m desc) k = mapFind m k := by
  rw [setObjectState_foldl]
  exact mapFind_foldl_not_mem desc desc m k
    (fun nd hnd hk => h (hk ▸ List.mem_map_of_mem (fun x => x.id) hnd))

/-- C7: `SetObjectState` (restore) only adds or replaces entries of the
id-to-node map: an id that does not occur among the restored nodes' ids is
looked up to exactly what it was before the restore (pre-existing entries
survive unchanged), while an id that does occur among them yields the
registered form of the last restored node carrying it — silently replacing
any pre-existing entry rather than reporting the collision. -/
theorem setObjectState_frame (m : Model) (desc : List GNode) (k : Nat) :
    (k ∉ desc.map (fun nd => nd.id) →
      mapFind (SetObjectState m desc) k = mapFind m k) ∧
    (∀ nd : GNode, lastWithId desc k = some nd →
      mapFind (SetObjectState m desc) k = some (registerNode desc nd)) := by
  constructor
  · exact mapFind_setObjectState_not_mem m desc k
  · intro nd h
    rw [setObjectState_foldl]
    exact mapFind_foldl_last desc desc m k nd h

/-- Witness for C7: a restore leaves an unrelated entry untouched, and a
colliding id ends up mapped to the restored node. -/
theorem setObjectState_frame_witness :
    mapFind (SetObjectState [(9, ⟨9, [], []⟩)] [⟨5, [], []⟩]) 9
        = mapFind [(9, ⟨9, [], []⟩)] 9 ∧
    mapFind (SetObjectState [(5, ⟨5, [[1]], []⟩)] [⟨5, [], []⟩]) 5
        = some (registerNode [⟨5, [], []⟩] ⟨5, [], []⟩) :=
  ⟨(setObjectState_frame [(9, ⟨9, [], []⟩)] [⟨5, [], []⟩] 9).1 (by decide),
   (setObjectState_frame [(5, ⟨5, [[1]], []⟩)] [⟨5, [], []⟩] 5).2 ⟨5, [], []⟩
     (by decide)⟩

/-- C8: looking up an id never inserted into the container returns the
absence value (a null pointer, never an error) and hands the map back
untouched, both before and after a restore that does not involve that id. -/
theorem getNode_never_inserted (m : Model) (desc : List GNode) (k : Nat)
    (hm : k ∉ keysOf m) (hd : k ∉ desc.map (fun nd => nd.id)) :
    (GetNode m k).1 = none ∧ (GetNode m k).2 = m ∧
      (GetNode (SetObjectState m desc) k).1 = none ∧
      (GetNode (SetObjectState m desc) k).2 = SetObjectState m desc := by
  refine ⟨?_, getNode_snd m k, ?_, getNode_snd _ k⟩
  · rw [getNode_fst]
    exact mapFind_eq_none m k hm
  · rw [getNode_fst, mapFind_setObjectState_not_mem m desc k hd]
    exact mapFind_eq_none m k hm

/-- Witness for C8: id 5 was never inserted, and stays absent across an
unrelated restore. -/
theorem getNode_never_inserted_witness :
    (GetNode [(1, ⟨1, [], []⟩)] 5).1 = none ∧
      (GetNode [(1, ⟨1, [], []⟩)] 5).2 = [(1, ⟨1, [], []⟩)] ∧
      (GetNode (SetObjectState [(1, ⟨1, [], []⟩)] [⟨2, [], []⟩]) 5).1 = none ∧
      (GetNode (SetObjectState [(1, ⟨1, [], []⟩)] [⟨2, [], []⟩]) 5).2
        = SetObjectState [(1, ⟨1, [], []⟩)] [⟨2, [], []⟩] :=
  getNode_never_inserted [(1, ⟨1, [], []⟩)] [⟨2, [], []⟩] 5 (by decide) (by decide)

/-- C9: looking up an old id not yet registered in the remapping context
yields `none` (a null pointer, not an error); after `MapNode oldId node`,
looking up `oldId` yields that node. -/
theorem getNodeFromId_lookup (c : ModelSerializationContext) (id : Nat)
    (node : GNode) (h : id ∉ ctxKeys c) :
    (GetNodeFromId c id).1 = none ∧
      (GetNodeFromId (MapNode c id node) id).1 = some node := by
  constructor
  · unfold GetNodeFromId
    rw [find?_key_eq_none _ _ h]
  · show (GetNodeFromId ⟨alistInsert c.oldToNewNodeMap id (some node)⟩ id).1
      = some node
    unfold GetNodeFromId
    rw [find?_alistInsert_self]

/-- Witness for C9 on the empty context. -/
theorem getNodeFromId_lookup_witness :
    (GetNodeFromId ⟨[]⟩ 4).1 = none ∧
      (GetNodeFromId (MapNode ⟨[]⟩ 4 ⟨4, [], []⟩) 4).1 = some ⟨4, [], []⟩ :=
  getNodeFromId_lookup ⟨[]⟩ 4 ⟨4, [], []⟩ (by decide)

/-- C10: `GetNodeFromId` on an id never passed to `MapNode` is not a
read-only query: `operator[]` inserts a null-valued entry for the id, so the
old-to-new map grows by exactly that entry while the returned node is null. -/
theorem getNodeFromId_miss_inserts (c : ModelSerializationContext) (id : Nat)
    (h : id ∉ ctxKeys c) :
    (GetNodeFromId c id).1 = none ∧
      (GetNodeFromId c id).2.oldToNewNodeMap = c.oldToNewNodeMap ++ [(id, none)] ∧
      id ∈ ctxKeys (GetNodeFromId c id).2 := by
  unfold GetNodeFromId
  rw [find?_key_eq_none _ _ h]
  refine ⟨rfl, rfl, ?_⟩
  simp [ctxKeys]

/-- Witness for C10: a miss on id 2 grows a one-entry context by a null
entry for 2. -/
theorem getNodeFromId_miss_inserts_witness :
    (GetNodeFromId ⟨[(1, some ⟨1, [], []⟩)]⟩ 2).1 = none ∧
      (GetNodeFromId ⟨[(1, some ⟨1, [], []⟩)]⟩ 2).2.oldToNewNodeMap
        = [(1, some ⟨1, [], []⟩)] ++ [(2, none)] ∧
      2 ∈ ctxKeys (GetNodeFromId ⟨[(1, some ⟨1, [], []⟩)]⟩ 2).2 :=
  getNodeFromId_miss_inserts ⟨[(1, some ⟨1, [], []⟩)]⟩ 2 (by decide)

/-! ## Claim theorems: loop body push order (C6) and round trip (C3) -/

/-- C6 counterexample: at node 1 of `mC6` (one input port whose parents are
`[2, 3]`, both unvisited) the source pushes the port's parents in stored
order, so the loop continues with stack `[3, 2, 1]` (top first), not the
`[2, 3, 1]` that pushing «in reverse parent order» within the port — the
claim's wording, embodied by `loopStepSpecC6` — would produce. -/
theorem loopStep_reverse_parent_counterexample :
    loopStep mC6 false [1] [] = .goOn [3, 2, 1] ∧
      loopStepSpecC6 mC6 false [1] [] = .goOn [2, 3, 1] ∧
      loopStep mC6 false [1] [] ≠ loopStepSpecC6 mC6 false [1] [] := by decide

/-- C6 (amended): when `Next` examines an unvisited stack-top node that is
not visit-ready, the node is not popped; the loop continues with the parents
of all its input ports pushed above the unchanged stack, the ports being
walked in reverse order and each port's parents pushed in their stored (not
reversed) order — so the new stack starts with the ports' parent lists, port
by port, each reversed. -/
theorem loopStep_blocked (m : Model) (full : Bool) (stack visited : List Nat)
    (n : Nat) (rest : List Nat) (hst : stack = n :: rest) (hnv : n ∉ visited)
    (hcv : ¬ ((getNodeD m n).inputPorts.all
      (fun port => port.all (fun p => p ∈ visited)) = true)) :
    loopStep m full stack visited =
      .goOn ((getNodeD m n).inputPorts.flatMap (fun port => port.reverse)
        ++ stack) := by
  subst hst
  exact loopStep_push m full n rest visited hnv
    (fun hall => hcv ((canVisit_iff m n visited).mpr hall))

/-- Witness for C6 (amended) at node 1 of `mC6`. -/
theorem loopStep_blocked_witness :
    loopStep mC6 false [1] [] =
      .goOn ((getNodeD mC6 1).inputPorts.flatMap (fun port => port.reverse)
        ++ [1]) :=
  loopStep_blocked mC6 false [1] [] 1 [] rfl (by decide) (by decide)

/-- C3 counterexample: for the acyclic but disconnected two-node container
`mDisc` the whole-graph description reaches only one node (the seed
discovery follows a single dependent chain, §9), so restoring it into an
empty container yields one node instead of two: the round-trip law does not
hold for every acyclic graph. -/
theorem roundTrip_not_universal :
    (SetObjectState [] (GetDescription mDisc 30 10)).length = 1 ∧
      mDisc.length = 2 ∧ roundTripOK mDisc 30 10 = false := by decide

/-- C3 (amended): for the three graphs the round-trip law names — a single
node with no inputs, a linear chain of three nodes, and a diamond —
`GetDescription` followed by `SetObjectState` into an empty container yields
a container with the same node count, the same id set, and identical
per-node input ports and dependent sets. -/
theorem roundTrip_listed_graphs :
    roundTripOK single1 30 10 = true ∧ roundTripOK chain3 30 10 = true ∧
      roundTripOK diamond 30 10 = true := by decide

/-! ## Exhaustion of the run on acyclic graphs -/

theorem runIter_mono_exhausted (m : Model) :
    ∀ (calls fuel fuel' : Nat) (s : NodeIterator), fuel ≤ fuel' →
      (runIter m fuel calls (some s)).2 = .exhausted →
      runIter m fuel' calls (some s) = runIter m fuel calls (some s) := by
  intro calls
  induction calls with
  | zero =>
    intro fuel fuel' s _ h
    rw [runIter_zero] at h
    exact absurd h (by simp)
  | succ calls ih =>
    intro fuel fuel' s hle h
    cases hc : s.currentNode with
    | none =>
      rw [runIter_succ_none m fuel calls s hc] at h
      rw [runIter_succ_none m fuel' calls s hc, runIter_succ_none m fuel calls s hc]
    | some c =>
      rw [runIter_succ_some m fuel calls s c hc] at h
      rw [runIter_succ_some m fuel' calls s c hc,
        runIter_succ_some m fuel calls s c hc]
      cases hnx : Next m fuel s with
      | none =>
        rw [hnx, runIter_none] at h
        exact absurd h (by simp)
      | some s' =>
        rw [hnx] at h
        rw [Next_mono m fuel fuel' s s' hle hnx, ih fuel fuel' s' hle h]

theorem nextChain_mono (m : Model) (fuel fuel' : Nat) (hle : fuel ≤ fuel') :
    ∀ (s : NodeIterator) (L : List Nat) (sf : NodeIterator),
      NextChain m fuel s L sf → NextChain m fuel' s L sf := by
  intro s L sf h
  induction h with
  | done s h => exact .done s h
  | step s c s' L sf h1 h2 h3 ih =>
    exact .step s c s' L sf h1 (Next_mono m fuel fuel' s s' hle h2) ih

theorem nextChain_last (m : Model) (fuel : Nat) :
    ∀ (s : NodeIterator) (L : List Nat) (sf : NodeIterator),
      NextChain m fuel s L sf → sf.currentNode = none := by
  intro s L sf h
  induction h with
  | done s h => exact h
  | step s c s' L sf h1 h2 h3 ih => exact ih

theorem stateOK_chain (m : Model) (fuel : Nat) :
    ∀ (s : NodeIterator) (L : List Nat) (sf : NodeIterator),
      NextChain m fuel s L sf → ∀ seen : List Nat,
      StateOK m s seen → StateOK m sf (seen ++ L) := by
  intro s L sf h
  induction h with
  | done s h =>
    intro seen hok
    simpa using hok
  | step s c s' L sf h1 h2 h3 ih =>
    intro seen hok
    have h' := ih (seen ++ [c]) (stateOK_next m fuel s s' seen c hok h1 h2)
    simpa [List.append_assoc] using h'

theorem nextChain_invariant (m : Model) (fuel : Nat) (P : NodeIterator → Prop)
    (hstep : ∀ s s' : NodeIterator, Next m fuel s = some s' → P s → P s') :
    ∀ (s : NodeIterator) (L : List Nat) (sf : NodeIterator),
      NextChain m fuel s L sf → P s → P sf := by
  intro s L sf h
  induction h with
  | done s h => exact id
  | step s c s' L sf h1 h2 h3 ih => exact fun hp => ih (hstep s s' h2 hp)

theorem run_exhausts (m : Model) (hacy : AcyclicModel m) (U : List Nat)
    (hUm : ∀ x ∈ modelUniverse m, x ∈ U) :
    ∀ (k : Nat) (s : NodeIterator) (seen : List Nat),
      StateOK m s seen → seen.Nodup → (∀ x ∈ seen, x ∈ U) →
      (∀ x ∈ s.stack, x ∈ U) → (∀ x ∈ s.visited, x ∈ U) →
      U.length ≤ k + seen.length →
      ∃ (fuel calls : Nat) (L : List Nat) (sf : NodeIterator),
        runIter m fuel calls (some s) = (L, .exhausted) ∧
        NextChain m fuel s L sf := by
  intro k
  induction k with
  | zero =>
    intro s seen hok hnd hsU hstU hvU hbound
    cases hc : s.currentNode with
    | none =>
      exact ⟨0, 1, [], s, runIter_succ_none m 0 0 s hc, .done s hc⟩
    | some c =>
      exfalso
      obtain ⟨hiff, hfresh, -⟩ := hok.1 c hc
      have hcU : c ∈ U := hvU c ((hiff c).mpr (Or.inl rfl))
      have hnd' : (seen ++ [c]).Nodup := by
        rw [List.nodup_append]
        refine ⟨hnd, by simp, ?_⟩
        intro a ha hac
        rw [List.mem_singleton] at hac
        exact hfresh (hac ▸ ha)
      have hsub : ∀ x ∈ seen ++ [c], x ∈ U := by
        intro x hx
        rcases List.mem_append.mp hx with h' | h'
        · exact hsU x h'
        · rw [List.mem_singleton] at h'
          exact h' ▸ hcU
      have hle := length_le_of_nodup_subset (seen ++ [c]) U hnd' hsub
      rw [List.length_append, List.length_singleton] at hle
      omega
  | succ k ih =>
    intro s seen hok hnd hsU hstU hvU hbound
    cases hc : s.currentNode with
    | none =>
      exact ⟨0, 1, [], s, runIter_succ_none m 0 0 s hc, .done s hc⟩
    | some c =>
      obtain ⟨f0, s', hnx⟩ := Next_terminates m hacy s
      obtain ⟨hiff, hfresh, -⟩ := hok.1 c hc
      have hcU : c ∈ U := hvU c ((hiff c).mpr (Or.inl rfl))
      have hok' := stateOK_next m f0 s s' seen c hok hc hnx
      have hnd' : (seen ++ [c]).Nodup := by
        rw [List.nodup_append]
        refine ⟨hnd, by simp, ?_⟩
        intro a ha hac
        rw [List.mem_singleton] at hac
        exact hfresh (hac ▸ ha)
      have hsU' : ∀ x ∈ seen ++ [c], x ∈ U := by
        intro x hx
        rcases List.mem_append.mp hx with h' | h'
        · exact hsU x h'
        · rw [List.mem_singleton] at h'
          exact h' ▸ hcU
      obtain ⟨hst', hvs', -⟩ := Next_state_subset m U hUm f0 s s' hstU hvU hnx
      have hbound' : U.length ≤ k + (seen ++ [c]).length := by
        rw [List.length_append, List.length_singleton]
        omega
      obtain ⟨fuel1, calls1, L1, sf, hrun1, hchain1⟩ :=
        ih s' (seen ++ [c]) hok' hnd' hsU' hst' hvs' hbound'
      refine ⟨max f0 fuel1, calls1 + 1, c :: L1, sf, ?_, ?_⟩
      · rw [runIter_succ_some m (max f0 fuel1) calls1 s c hc,
          Next_mono m f0 (max f0 fuel1) s s' (le_max_left f0 fuel1) hnx,
          runIter_mono_exhausted m calls1 fuel1 (max f0 fuel1) s'
            (le_max_right f0 fuel1) (by rw [hrun1]), hrun1]
      · exact .step s c s' L1 sf hc
          (Next_mono m f0 (max f0 fuel1) s s' (le_max_left f0 fuel1) hnx)
          (nextChain_mono m fuel1 (max f0 fuel1) (le_max_right f0 fuel1)
            s' L1 sf hchain1)

/-! ## Restricted mode emits exactly the ancestor closure (C4) -/

theorem Next_cover (m : Model) (fuel : Nat) (s s' : NodeIterator) (o : Nat)
    (h : Next m fuel s = some s') (ho : o ∈ s.visited ∨ o ∈ s.stack) :
    o ∈ s'.visited ∨ o ∈ s'.stack := by
  obtain ⟨r, hr, rfl⟩ := Next_eq_some m fuel s s' h
  have h' := nextLoop_cover m s.visitFullModel s.visited o fuel s.stack r ho hr
  exact h'

theorem Next_parentClosed (m : Model) (fuel : Nat) (s s' : NodeIterator)
    (h : Next m fuel s = some s')
    (hvis : ∀ x ∈ s.visited, ∀ p ∈ parentsOf m x, p ∈ s.visited) :
    ∀ x ∈ s'.visited, ∀ p ∈ parentsOf m x, p ∈ s'.visited := by
  obtain ⟨r, hr, rfl⟩ := Next_eq_some m fuel s s' h
  exact nextLoop_parentClosed m s.visitFullModel s.visited hvis fuel s.stack r hr

theorem Next_ancClosed (m : Model) (A : Nat → Prop)
    (hA : ∀ n p : Nat, p ∈ parentsOf m n → A n → A p) (fuel : Nat)
    (s s' : NodeIterator) (hfull : s.visitFullModel = false)
    (hstk : ∀ x ∈ s.stack, A x) (hvis : ∀ x ∈ s.visited, A x)
    (h : Next m fuel s = some s') :
    s'.visitFullModel = false ∧ (∀ x ∈ s'.stack, A x) ∧
      (∀ x ∈ s'.visited, A x) ∧ ∀ c, s'.currentNode = some c → A c := by
  obtain ⟨r, hr, rfl⟩ := Next_eq_some m fuel s s' h
  rw [hfull] at hr
  obtain ⟨hst', hvs'⟩ :=
    nextLoop_closed m s.visited A hA hvis fuel s.stack r hstk hr
  refine ⟨hfull, hst', hvs', ?_⟩
  intro c hc
  rcases nextLoop_some_spec m false s.visited fuel s.stack r hr with
    ⟨h4, -, -⟩ | ⟨n', h4, -, -, h5⟩
  · rw [show (⟨r.2.1, r.2.2, r.1, s.visitFullModel⟩ :
        NodeIterator).currentNode = r.1 from rfl, h4] at hc
    exact absurd hc (by simp)
  · rw [show (⟨r.2.1, r.2.2, r.1, s.visitFullModel⟩ :
        NodeIterator).currentNode = r.1 from rfl, h4] at hc
    obtain rfl := Option.some.inj hc
    exact hvs' _ (by rw [h5]; exact List.mem_cons_self _ s.visited)

theorem runIter_emits_anc (m : Model) (A : Nat → Prop)
    (hA : ∀ n p : Nat, p ∈ parentsOf m n → A n → A p) :
    ∀ (calls fuel : Nat) (s : NodeIterator), s.visitFullModel = false →
      (∀ x ∈ s.stack, A x) → (∀ x ∈ s.visited, A x) →
      (∀ c, s.currentNode = some c → A c) →
      ∀ x ∈ (runIter m fuel calls (some s)).1, A x := by
  intro calls
  induction calls with
  | zero =>
    intro fuel s _ _ _ _ x hx
    rw [runIter_zero] at hx
    exact absurd hx (by simp)
  | succ calls ih =>
    intro fuel s hfull hstk hvis hcur x hx
    cases hc : s.currentNode with
    | none =>
      rw [runIter_succ_none m fuel calls s hc] at hx
      exact absurd hx (by simp)
    | some c =>
      rw [runIter_succ_some m fuel calls s c hc] at hx
      rcases List.mem_cons.mp hx with rfl | hx'
      · exact hcur x hc
      · cases hnx : Next m fuel s with
        | none => rw [hnx, runIter_none] at hx'; exact absurd hx' (by simp)
        | some s' =>
          rw [hnx] at hx'
          obtain ⟨hfull', hstk', hvis', hcur'⟩ :=
            Next_ancClosed m A hA fuel s s' hfull hstk hvis hnx
          exact ih fuel s' hfull' hstk' hvis' hcur' x hx'

/-- C4: on an acyclic container, the iterator restricted to a non-empty set
of output nodes held by the container emits only nodes that are ancestors
(inclusively) of some output — for every fuel and call budget — and, for
sufficient fuel and calls, finishes exhausted having emitted every such
ancestor. -/
theorem iterator_restricted_ancestors (m : Model) (outputs : List Nat)
    (hacy : AcyclicModel m) (hne : outputs ≠ [])
    (hmem : ∀ o ∈ outputs, o ∈ keysOf m) :
    (∀ fuel calls : Nat, ∀ n ∈ emitList m outputs fuel calls,
        ∃ o ∈ outputs, IsAncestor m o n) ∧
    (∃ fuel calls : Nat,
        emitEnd m outputs fuel calls = .exhausted ∧
        ∀ a, (∃ o ∈ outputs, IsAncestor m o a) →
          a ∈ emitList m outputs fuel calls) := by
  have hmne : ¬ (m.length = 0) := by
    obtain ⟨o, ho⟩ : ∃ o, o ∈ outputs := by
      cases outputs with
      | nil => exact absurd rfl hne
      | cons a l => exact ⟨a, List.mem_cons_self a l⟩
    have hk := hmem o ho
    intro he
    rw [List.length_eq_zero] at he
    subst he
    simp [keysOf] at hk
  have hout : ¬ (outputs.isEmpty = true) := by
    cases outputs with
    | nil => exact absurd rfl hne
    | cons a l => simp
  have hA : ∀ n p : Nat, p ∈ parentsOf m n →
      (∃ o ∈ outputs, IsAncestor m o n) → ∃ o ∈ outputs, IsAncestor m o p := by
    rintro n p hp ⟨o, ho, hanc⟩
    exact ⟨o, ho, Relation.ReflTransGen.tail hanc hp⟩
  constructor
  · intro fuel calls n hn
    unfold emitList at hn
    have hinit : initIterator m outputs fuel =
        Next m fuel ⟨outputs.reverse, [], none, false⟩ := by
      unfold initIterator
      rw [if_neg hmne, if_neg hout]
    rw [hinit] at hn
    cases hnx : Next m fuel ⟨outputs.reverse, [], none, false⟩ with
    | none => rw [hnx, runIter_none] at hn; exact absurd hn (by simp)
    | some s1 =>
      rw [hnx] at hn
      obtain ⟨hfull1, hstk1, hvis1, hcur1⟩ := Next_ancClosed m
        (fun x => ∃ o ∈ outputs, IsAncestor m o x) hA fuel _ s1 rfl
        (by
          intro x hx
          rw [show (⟨outputs.reverse, [], none, false⟩ :
            NodeIterator).stack = outputs.reverse from rfl,
            List.mem_reverse] at hx
          exact ⟨x, hx, Relation.ReflTransGen.refl⟩)
        (fun x hx => absurd hx (by simp)) hnx
      exact runIter_emits_anc m (fun x => ∃ o ∈ outputs, IsAncestor m o x) hA
        calls fuel s1 hfull1 hstk1 hvis1 hcur1 n hn
  · obtain ⟨f0, s1, hnx⟩ := Next_terminates m hacy
      ⟨outputs.reverse, [], none, false⟩
    have hok1 : StateOK m s1 [] :=
      stateOK_preNext m f0 false outputs.reverse s1 hnx
    have hU : ∀ x ∈ modelUniverse m, x ∈ outputs ++ modelUniverse m :=
      fun x hx => List.mem_append_right _ hx
    obtain ⟨hst1, hvs1, -⟩ := Next_state_subset m (outputs ++ modelUniverse m)
      hU f0 _ s1
      (fun x hx => List.mem_append_left _ (List.mem_reverse.mp hx))
      (fun x hx => absurd hx (by simp)) hnx
    obtain ⟨fuel1, calls1, L, sf, hrun, hchain⟩ := run_exhausts m hacy
      (outputs ++ modelUniverse m) hU (outputs ++ modelUniverse m).length s1 []
      hok1 List.nodup_nil (fun x hx => absurd hx (by simp)) hst1 hvs1
      (by simp)
    refine ⟨max f0 fuel1, calls1, ?_, ?_⟩
    · -- the run ends exhausted at the combined fuel
      have hinit : initIterator m outputs (max f0 fuel1) =
          Next m (max f0 fuel1) ⟨outputs.reverse, [], none, false⟩ := by
        unfold initIterator
        rw [if_neg hmne, if_neg hout]
      unfold emitEnd
      rw [hinit, Next_mono m f0 (max f0 fuel1) _ s1 (le_max_left f0 fuel1) hnx,
        runIter_mono_exhausted m calls1 fuel1 (max f0 fuel1) s1
          (le_max_right f0 fuel1) (by rw [hrun]), hrun]
    · rintro a ⟨o, ho, hanc⟩
      -- transported invariants at the final state
      have hchain' := nextChain_mono m fuel1 (max f0 fuel1)
        (le_max_right f0 fuel1) s1 L sf hchain
      have hnx' := Next_mono m f0 (max f0 fuel1) _ s1 (le_max_left f0 fuel1) hnx
      have hcover0 : o ∈ (⟨outputs.reverse, [], none, false⟩ :
          NodeIterator).visited ∨ o ∈ (⟨outputs.reverse, [], none, false⟩ :
          NodeIterator).stack := by
        right
        rw [show (⟨outputs.reverse, [], none, false⟩ :
          NodeIterator).stack = outputs.reverse from rfl, List.mem_reverse]
        exact ho
      have hcover1 := Next_cover m (max f0 fuel1) _ s1 o hnx' hcover0
      have hcoverf : o ∈ sf.visited ∨ o ∈ sf.stack :=
        nextChain_invariant m (max f0 fuel1)
          (fun s => o ∈ s.visited ∨ o ∈ s.stack)
          (fun s s' hs => Next_cover m (max f0 fuel1) s s' o hs)
          s1 L sf hchain' hcover1
      have hpc1 : ∀ x ∈ s1.visited, ∀ p ∈ parentsOf m x, p ∈ s1.visited :=
        Next_parentClosed m (max f0 fuel1) _ s1 hnx'
          (fun x hx => absurd hx (by simp))
      have hpcf : ∀ x ∈ sf.visited, ∀ p ∈ parentsOf m x, p ∈ sf.visited :=
        nextChain_invariant m (max f0 fuel1)
          (fun s => ∀ x ∈ s.visited, ∀ p ∈ parentsOf m x, p ∈ s.visited)
          (fun s s' hs => Next_parentClosed m (max f0 fuel1) s s' hs)
          s1 L sf hchain' hpc1
      have hokf : StateOK m sf L := by
        have h' := stateOK_chain m (max f0 fuel1) s1 L sf hchain' [] hok1
        simpa using h'
      obtain ⟨hifff, hstkf⟩ := hokf.2 (nextChain_last m (max f0 fuel1) s1 L sf
        hchain')
      have hof : o ∈ sf.visited := by
        rcases hcoverf with h' | h'
        · exact h'
        · rw [hstkf] at h'
          exact absurd h' (by simp)
      have haf : a ∈ sf.visited := by
        clear hcoverf hcover1 hcover0
        induction hanc with
        | refl => exact hof
        | tail hab hbc ih => exact hpcf _ ih _ hbc
      have hinit : initIterator m outputs (max f0 fuel1) =
          Next m (max f0 fuel1) ⟨outputs.reverse, [], none, false⟩ := by
        unfold initIterator
        rw [if_neg hmne, if_neg hout]
      unfold emitList
      rw [hinit, hnx',
        runIter_mono_exhausted m calls1 fuel1 (max f0 fuel1) s1
          (le_max_right f0 fuel1) (by rw [hrun]), hrun]
      exact (hifff a).mp haf

/-- Witness for C4 on the diamond graph restricted to output node 2 (whose
ancestor set is nodes 1 and 2). -/
theorem iterator_restricted_ancestors_witness :
    (∀ fuel calls : Nat, ∀ n ∈ emitList diamond [2] fuel calls,
        ∃ o ∈ [2], IsAncestor diamond o n) ∧
    (∃ fuel calls : Nat,
        emitEnd diamond [2] fuel calls = .exhausted ∧
        ∀ a, (∃ o ∈ [2], IsAncestor diamond o a) →
          a ∈ emitList diamond [2] fuel calls) :=
  iterator_restricted_ancestors diamond [2]
    (acyclicModel_of_entries diamond (fun n => n) (by decide))
    (by decide) (by decide)

/-! ## Whole-graph mode reaches every node of a connected DAG (C5) -/

theorem findLeaf_nilDeps (m : Model) (fuel n : Nat) (h : depsOf m n = []) :
    findLeaf m fuel n = some n := by
  unfold findLeaf
  rw [h]

theorem findLeaf_consDeps_zero (m : Model) (n d : Nat) (ds : List Nat)
    (h : depsOf m n = d :: ds) : findLeaf m 0 n = none := by
  unfold findLeaf
  rw [h]

theorem findLeaf_consDeps (m : Model) (fuel n d : Nat) (ds : List Nat)
    (h : depsOf m n = d :: ds) :
    findLeaf m (fuel + 1) n = findLeaf m fuel d := by
  conv =>
    lhs
    unfold findLeaf
  rw [h]

theorem findLeaf_mono (m : Model) :
    ∀ (fuel fuel' n leaf : Nat), fuel ≤ fuel' →
      findLeaf m fuel n = some leaf → findLeaf m fuel' n = some leaf := by
  intro fuel
  induction fuel with
  | zero =>
    intro fuel' n leaf _ h
    cases hd : depsOf m n with
    | nil => rw [findLeaf_nilDeps m _ n hd] at h ⊢; exact h
    | cons d ds =>
      rw [findLeaf_consDeps_zero m n d ds hd] at h
      exact absurd h (by simp)
  | succ fuel ih =>
    intro fuel' n leaf hle h
    cases hd : depsOf m n with
    | nil => rw [findLeaf_nilDeps m _ n hd] at h ⊢; exact h
    | cons d ds =>
      obtain ⟨f'', rfl⟩ : ∃ k, fuel' = k + 1 := ⟨fuel' - 1, by omega⟩
      rw [findLeaf_consDeps m fuel n d ds hd] at h
      rw [findLeaf_consDeps m f'' n d ds hd]
      exact ih f'' d leaf (by omega) h

theorem le_foldr_max (l : List Nat) : ∀ x ∈ l, x ≤ l.foldr max 0 := by
  induction l with
  | nil => intro x hx; exact absurd hx (by simp)
  | cons a l ih =>
    intro x hx
    rcases List.mem_cons.mp hx with rfl | hx'
    · exact le_max_left x (l.foldr max 0)
    · exact le_trans (ih x hx') (le_max_right a (l.foldr max 0))

theorem findLeaf_exists (m : Model) (rank : Nat → Nat)
    (hr : ∀ n p : Nat, p ∈ parentsOf m n → rank p < rank n)
    (hcons : Consistent m) :
    ∀ (k n : Nat), n ∈ keysOf m → (∀ x ∈ keysOf m, rank x ≤ rank n + k) →
      ∃ leaf, leaf ∈ keysOf m ∧ depsOf m leaf = [] ∧
        findLeaf m k n = some leaf := by
  intro k
  induction k with
  | zero =>
    intro n hn hbound
    cases hd : depsOf m n with
    | nil => exact ⟨n, hn, hd, findLeaf_nilDeps m 0 n hd⟩
    | cons d ds =>
      exfalso
      have hdp : n ∈ parentsOf m d := (hcons n d).mpr (by rw [hd]; simp)
      have hdk : d ∈ keysOf m := parentsOf_key m d n hdp
      have h1 := hr d n hdp
      have h2 := hbound d hdk
      omega
  | succ k ih =>
    intro n hn hbound
    cases hd : depsOf m n with
    | nil => exact ⟨n, hn, hd, findLeaf_nilDeps m (k + 1) n hd⟩
    | cons d ds =>
      have hdp : n ∈ parentsOf m d := (hcons n d).mpr (by rw [hd]; simp)
      have hdk : d ∈ keysOf m := parentsOf_key m d n hdp
      have hlt := hr d n hdp
      obtain ⟨leaf, h1, h2, h3⟩ := ih d hdk
        (fun x hx => by have := hbound x hx; omega)
      exact ⟨leaf, h1, h2, by rw [findLeaf_consDeps m k n d ds hd]; exact h3⟩

theorem Next_depsInv (m : Model) (fuel : Nat) (s s' : NodeIterator)
    (hfull : s.visitFullModel = true)
    (hinv : ∀ x ∈ s.visited, ∀ d ∈ depsOf m x, d ∈ s.visited ∨ d ∈ s.stack)
    (h : Next m fuel s = some s') :
    s'.visitFullModel = true ∧
      ∀ x ∈ s'.visited, ∀ d ∈ depsOf m x, d ∈ s'.visited ∨ d ∈ s'.stack := by
  obtain ⟨r, hr, rfl⟩ := Next_eq_some m fuel s s' h
  rw [hfull] at hr
  exact ⟨hfull, fun x hx d hd =>
    nextLoop_depsInv m s.visited fuel s.stack r hinv hr x hx d hd⟩

/-- Derives the coherence of the two edge directions from a bounded check
over the container's entries (decidable on a concrete container). -/
theorem consistent_of_entries (m : Model)
    (h : ∀ e ∈ m,
      (∀ p ∈ e.2.inputPorts.flatMap (fun port => port), e.1 ∈ depsOf m p) ∧
      ∀ d ∈ e.2.dependents, e.1 ∈ parentsOf m d) :
    Consistent m := by
  intro p n
  constructor
  · intro hp
    obtain ⟨nd, hmem, hflat⟩ := parentsOf_cases m n p hp
    exact (h (n, nd) hmem).1 p hflat
  · intro hd
    obtain ⟨pd, hmem, hdep⟩ := depsOf_cases m p n hd
    exact (h (p, pd) hmem).2 n hdep

theorem chain3_connected : WeaklyConnected chain3 := by
  have e12 : UEdge chain3 1 2 := Or.inr (by decide)
  have e23 : UEdge chain3 2 3 := Or.inr (by decide)
  have e21 : UEdge chain3 2 1 := Or.inl (by decide)
  have e32 : UEdge chain3 3 2 := Or.inl (by decide)
  intro a ha b hb
  have ha' : a = 1 ∨ a = 2 ∨ a = 3 := by simpa [keysOf, chain3] using ha
  have hb' : b = 1 ∨ b = 2 ∨ b = 3 := by simpa [keysOf, chain3] using hb
  rcases ha' with rfl | rfl | rfl <;> rcases hb' with rfl | rfl | rfl
  · exact .refl
  · exact .single e12
  · exact .tail (.single e12) e23
  · exact .single e21
  · exact .refl
  · exact .single e23
  · exact .tail (.single e32) e21
  · exact .single e32
  · exact .refl

/-- C5: on a non-empty, weakly connected, acyclic container whose two edge
directions cohere (§3), the whole-graph iterator — which seeds itself by
following first-dependent links from a held start node down to a sink —
eventually (for sufficient fuel and calls) finishes exhausted having
emitted every node held by the container, whichever start node the seed
discovery begins at. -/
theorem iterator_whole_graph_complete (m : Model) (start : Nat)
    (hacy : AcyclicModel m) (hcons : Consistent m) (hconn : WeaklyConnected m)
    (hstart : start ∈ keysOf m) :
    ∃ fuel calls : Nat,
      (runIter m fuel calls (initIteratorFrom m start fuel)).2 = .exhausted ∧
      ∀ n ∈ keysOf m,
        n ∈ (runIter m fuel calls (initIteratorFrom m start fuel)).1 := by
  obtain ⟨rank, hr⟩ := hacy
  have hmne : ¬ (m.length = 0) := by
    intro he
    rw [List.length_eq_zero] at he
    subst he
    simp [keysOf] at hstart
  have hbound : ∀ x ∈ keysOf m,
      rank x ≤ rank start + ((keysOf m).map rank).foldr max 0 := by
    intro x hx
    have h' := le_foldr_max ((keysOf m).map rank) (rank x)
      (List.mem_map_of_mem rank hx)
    omega
  obtain ⟨leaf, hlk, hld, hfl⟩ := findLeaf_exists m rank hr hcons
    (((keysOf m).map rank).foldr max 0) start hstart hbound
  obtain ⟨f0, s1, hnx⟩ := Next_terminates m ⟨rank, hr⟩ ⟨[leaf], [], none, true⟩
  have hok1 : StateOK m s1 [] := stateOK_preNext m f0 true [leaf] s1 hnx
  have hUid : ∀ x ∈ modelUniverse m, x ∈ modelUniverse m := fun x hx => hx
  obtain ⟨hst1, hvs1, -⟩ := Next_state_subset m (modelUniverse m) hUid f0 _ s1
    (by
      intro x hx
      rw [show (⟨[leaf], [], none, true⟩ : NodeIterator).stack = [leaf]
        from rfl, List.mem_singleton] at hx
      exact hx ▸ keys_universe m leaf hlk)
    (fun x hx => absurd hx (by simp)) hnx
  obtain ⟨fuel1, calls1, L, sf, hrun, hchain⟩ := run_exhausts m ⟨rank, hr⟩
    (modelUniverse m) hUid (modelUniverse m).length s1 [] hok1 List.nodup_nil
    (fun x hx => absurd hx (by simp)) hst1 hvs1 (by simp)
  have hMF : ((keysOf m).map rank).foldr max 0 ≤
      max (max (((keysOf m).map rank).foldr max 0) f0) fuel1 :=
    le_trans (le_max_left _ f0) (le_max_left _ fuel1)
  have hf0F : f0 ≤ max (max (((keysOf m).map rank).foldr max 0) f0) fuel1 :=
    le_trans (le_max_right _ f0) (le_max_left _ fuel1)
  have hf1F : fuel1 ≤ max (max (((keysOf m).map rank).foldr max 0) f0) fuel1 :=
    le_max_right _ fuel1
  have hnx' := Next_mono m f0 _ _ s1 hf0F hnx
  have hchain' := nextChain_mono m fuel1 _ hf1F s1 L sf hchain
  have hfrom : initIteratorFrom m start
      (max (max (((keysOf m).map rank).foldr max 0) f0) fuel1) = some s1 := by
    unfold initIteratorFrom
    rw [if_neg hmne, findLeaf_mono m _ _ start leaf hMF hfl, Option.some_bind]
    exact hnx'
  have hrunF : runIter m
      (max (max (((keysOf m).map rank).foldr max 0) f0) fuel1) calls1
      (some s1) = (L, .exhausted) := by
    rw [runIter_mono_exhausted m calls1 fuel1 _ s1 hf1F (by rw [hrun]), hrun]
  refine ⟨max (max (((keysOf m).map rank).foldr max 0) f0) fuel1, calls1,
    ?_, ?_⟩
  · rw [hfrom, hrunF]
  · intro n hn
    rw [hfrom, hrunF]
    have hpc1 : ∀ x ∈ s1.visited, ∀ p ∈ parentsOf m x, p ∈ s1.visited :=
      Next_parentClosed m _ _ s1 hnx' (fun x hx => absurd hx (by simp))
    have hpcf := nextChain_invariant m _
      (fun s => ∀ x ∈ s.visited, ∀ p ∈ parentsOf m x, p ∈ s.visited)
      (fun s s' hs => Next_parentClosed m _ s s' hs) s1 L sf hchain' hpc1
    have hdi1 : s1.visitFullModel = true ∧
        ∀ x ∈ s1.visited, ∀ d ∈ depsOf m x, d ∈ s1.visited ∨ d ∈ s1.stack :=
      Next_depsInv m _ _ s1 rfl (fun x hx => absurd hx (by simp)) hnx'
    have hdif := nextChain_invariant m _
      (fun s => s.visitFullModel = true ∧
        ∀ x ∈ s.visited, ∀ d ∈ depsOf m x, d ∈ s.visited ∨ d ∈ s.stack)
      (fun s s' hs hp => Next_depsInv m _ s s' hp.1 hp.2 hs) s1 L sf
      hchain' hdi1
    have hcov1 := Next_cover m _ _ s1 leaf hnx' (Or.inr (by simp))
    have hcovf := nextChain_invariant m _
      (fun s => leaf ∈ s.visited ∨ leaf ∈ s.stack)
      (fun s s' hs => Next_cover m _ s s' leaf hs) s1 L sf hchain' hcov1
    have hokf : StateOK m sf L := by
      have h' := stateOK_chain m _ s1 L sf hchain' [] hok1
      simpa using h'
    obtain ⟨hifff, hstkf⟩ := hokf.2 (nextChain_last m _ s1 L sf hchain')
    have hlf : leaf ∈ sf.visited := by
      rcases hcovf with h' | h'
      · exact h'
      · rw [hstkf] at h'
        exact absurd h' (by simp)
    have hstep : ∀ a b : Nat, UEdge m a b → a ∈ sf.visited →
        b ∈ sf.visited := by
      intro a b he ha
      rcases he with h' | h'
      · exact hpcf a ha b h'
      · have hd : b ∈ depsOf m a := (hcons a b).mp h'
        rcases hdif.2 a ha b hd with h'' | h''
        · exact h''
        · rw [hstkf] at h''
          exact absurd h'' (by simp)
    have hpath := hconn leaf hlk n hn
    clear hn
    have hnv : n ∈ sf.visited := by
      induction hpath with
      | refl => exact hlf
      | tail hab hbc ih => exact hstep _ _ hbc ih
    exact (hifff n).mp hnv

/-- Witness for C5: the three-node chain, with seed discovery started from
the middle node 2, emits all of nodes 1, 2, 3. -/
theorem iterator_whole_graph_complete_witness :
    ∃ fuel calls : Nat,
      (runIter chain3 fuel calls (initIteratorFrom chain3 2 fuel)).2
          = .exhausted ∧
      ∀ n ∈ keysOf chain3,
        n ∈ (runIter chain3 fuel calls (initIteratorFrom chain3 2 fuel)).1 :=
  iterator_whole_graph_complete chain3 2
    (acyclicModel_of_entries chain3 (fun n => n) (by decide))
    (consistent_of_entries chain3 (by decide))
    chain3_connected (by decide)

end EmllModel
